import Mathlib

/-!
# Verification of the SubtitlesTools subtitle-translation pipeline

Shallow embedding of `src/utils/subtitle_translator.py`.  Text values are
modelled as `List Char` (alias `Str`); the translation service
(`openai_api.text_to_text`) is modelled as an oracle assigning to each
successive call either a response string or a raised exception (`none`).
Every function below mirrors one Python function of the source file.
-/

namespace SubtitlesTools

/-- Python strings are modelled as lists of characters. -/
abbrev Str := List Char

/-- Characters treated as whitespace by Python's `str.strip` and by the
regex class `\s` (ASCII fragment: space, tab, newline, carriage return,
vertical tab, form feed).  The source only ever meets ASCII whitespace in
the positions that matter (newlines and spaces of SRT blocks). -/
def pyIsSpace (c : Char) : Bool :=
  c = ' ' || c = '\t' || c = '\n' || c = '\r' || c = '\x0b' || c = '\x0c'

/-- Python `str.strip()`: drop whitespace from both ends. -/
def pyStrip (s : Str) : Str :=
  ((s.dropWhile pyIsSpace).reverse.dropWhile pyIsSpace).reverse

/-- Python `str.split(sep)` for a single-character separator, as used by
`block.strip().split('\n')` in `parse_srt`. -/
def splitChar (sep : Char) : Str → List Str
  | [] => [[]]
  | c :: rest =>
    if c = sep then [] :: splitChar sep rest
    else
      match splitChar sep rest with
      | [] => [[c]]
      | l :: ls => (c :: l) :: ls

/-- Python `sep.join(items)` for a single-character separator. -/
def joinChar (sep : Char) : List Str → Str
  | [] => []
  | [l] => l
  | l :: ls => l ++ sep :: joinChar sep ls

/-- Python `needle in hay` (substring containment), used for the
`'-->' not in time_line` check. -/
def containsSub (needle : Str) : Str → Bool
  | [] => needle.isEmpty
  | c :: rest => needle.isPrefixOf (c :: rest) || containsSub needle rest

/-- One step of Python `str.split(sep)` on a multi-character separator:
fuel-driven scan, cutting at each leftmost occurrence of `sep`.  Used for
`translated_text.split('===NEXT===')`. -/
def splitOnSubAux (sep : Str) : Nat → Str → Str → List Str
  | _, [], acc => [acc.reverse]
  | 0, s, acc => [acc.reverse ++ s]
  | fuel + 1, c :: rest, acc =>
    if sep.isPrefixOf (c :: rest) then
      acc.reverse :: splitOnSubAux sep fuel ((c :: rest).drop sep.length) []
    else
      splitOnSubAux sep fuel rest (c :: acc)

/-- Python `str.split(sep)` for a non-empty multi-character separator. -/
def splitOnSub (sep s : Str) : List Str :=
  splitOnSubAux sep s.length s []

/-- Decimal digit character, as produced by Python `str(n)`. -/
def digitChar : Nat → Char
  | 0 => '0' | 1 => '1' | 2 => '2' | 3 => '3' | 4 => '4'
  | 5 => '5' | 6 => '6' | 7 => '7' | 8 => '8' | _ => '9'

/-- Digits of a natural number, most significant first (fuel-driven form of
the usual divide-by-ten loop inside Python `str`). -/
def natToCharsAux : Nat → Nat → Str → Str
  | 0, _, acc => acc
  | fuel + 1, n, acc =>
    if n < 10 then digitChar n :: acc
    else natToCharsAux fuel (n / 10) (digitChar (n % 10) :: acc)

/-- Python `str(n)` for a natural number. -/
def natToChars (n : Nat) : Str :=
  natToCharsAux (n + 1) n []

/-- Python `str(i)` for an integer (`str(subtitle['index'])` in
`generate_srt`). -/
def intToChars (i : Int) : Str :=
  if i < 0 then '-' :: natToChars i.natAbs else natToChars i.natAbs

/-- Value of an all-digit string, as computed by Python `int`. -/
def digitsVal (ds : Str) : Nat :=
  ds.foldl (fun a c => a * 10 + (c.toNat - 48)) 0

/-- The digit-string part of Python `int(s)`: every character must be a
decimal digit and there must be at least one. -/
def digitsToNat (ds : Str) : Option Nat :=
  if ds = [] then none
  else if ds.all Char.isDigit then some (digitsVal ds) else none

/-- Python `int(s)` (ASCII form: optional surrounding whitespace, optional
sign, decimal digits; `none` models the raised `ValueError`). -/
def pyIntParse (s : Str) : Option Int :=
  match pyStrip s with
  | '-' :: ds => (digitsToNat ds).map (fun n => -(n : Int))
  | '+' :: ds => (digitsToNat ds).map (fun n => (n : Int))
  | ds => (digitsToNat ds).map (fun n => (n : Int))

/-!
## The blank-line splitter of `parse_srt`

`re.split(r'\n\s*\n', content)`: a separator occurrence starts at a
newline and greedily extends through whitespace up to the last reachable
newline.  `afterLastNl ws` scans a whitespace run and returns the
remainder after its last newline (the greedy `\s*\n` tail), or `none`
when the run contains no newline, i.e. when no match starts here.
-/

/-- Remainder after the last newline inside the leading whitespace run,
when that run contains one. -/
def afterLastNl : Str → Option Str
  | [] => none
  | c :: rest =>
    if pyIsSpace c then
      match afterLastNl rest with
      | some r => some r
      | none => if c = '\n' then some rest else none
    else none

/-- Fuel-driven scan implementing `re.split(r'\n\s*\n', s)`: at each
newline whose following whitespace run contains another newline, cut and
resume after the match; otherwise keep the character. -/
def reSplitAux : Nat → Str → Str → List Str
  | _, acc, [] => [acc.reverse]
  | 0, acc, s => [acc.reverse ++ s]
  | fuel + 1, acc, c :: rest =>
    if c = '\n' then
      match afterLastNl rest with
      | some r => acc.reverse :: reSplitAux fuel [] r
      | none => reSplitAux fuel (c :: acc) rest
    else reSplitAux fuel (c :: acc) rest

/-- `re.split(r'\n\s*\n', s)`. -/
def reSplitNlNl (s : Str) : List Str :=
  reSplitAux s.length [] s

/-- A parsed subtitle record (`{'index': ..., 'timeline': ..., 'text': ...}`). -/
structure Record where
  index : Int
  timeline : Str
  text : Str
deriving DecidableEq

/-- Processing of one block inside the loop of `parse_srt`: the chained
`continue` guards become an `Option`. -/
def parseBlockFn (b : Str) : Option Record :=
  let sb := pyStrip b
  if sb = [] then none
  else
    let lines := splitChar '\n' sb
    if lines.length < 3 then none
    else
      match pyIntParse (lines.getD 0 []) with
      | none => none
      | some idx =>
        let timeLine := lines.getD 1 []
        if containsSub ("-->".data) timeLine then
          some { index := idx, timeline := timeLine,
                 text := joinChar '\n' (lines.drop 2) }
        else none

/-- The block loop of `parse_srt` (invalid blocks are skipped). -/
def parseBlocksLoop : List Str → List Record
  | [] => []
  | b :: bs =>
    match parseBlockFn b with
    | none => parseBlocksLoop bs
    | some r => r :: parseBlocksLoop bs

/-- `SubtitleTranslator.parse_srt`. -/
def parse_srt (content : Str) : List Record :=
  parseBlocksLoop (reSplitNlNl (pyStrip content))

/-!
## The batch translator

`openai_api.text_to_text` is modelled by an oracle mapping the running
call count to either `some response` (the returned `ai_text`) or `none`
(a raised exception).  Each translating function returns the result, the
next call count, and the list of prompts it sent (system content paired
with user content), so that which path was taken is observable.
-/

/-- The supported translation modes: the three keys of
`translation_rules_dict` (`"双语"`, `"英文"`, `"中文"`). -/
inductive TType where
  | bilingual   -- "双语"
  | english     -- "英文"
  | chinese     -- "中文"
deriving DecidableEq

/-- The display name of a mode (the dictionary key). -/
def ttName : TType → Str
  | .bilingual => "双语".data
  | .english => "英文".data
  | .chinese => "中文".data

/-- `translation_rules_dict[translation_type]`. -/
def translationRule : TType → Str
  | .bilingual => "你需要把用户提供的语言翻译成英文和中文，英文在上，中文在下".data
  | .english => "你需要把用户提供的语言翻译成英文".data
  | .chinese => "你需要把用户提供的语言翻译成中文".data

/-- The system prompt built in both `translate_single_text` and
`translate_texts_batch`. -/
def systemPrompt (tt : TType) : Str :=
  "你是一个翻译助手，翻译规则：\n".data ++ translationRule tt

/-- The numbered text section of the batch user prompt
(`f"字幕{i}：{text}\n\n"` for each text, 1-based). -/
def numberedTexts : Nat → List Str → Str
  | _, [] => []
  | i, t :: ts =>
    "字幕".data ++ natToChars i ++ '：' :: t ++ '\n' :: '\n' :: numberedTexts (i + 1) ts

/-- The mode-dependent header of the batch user prompt. -/
def batchHeader : TType → Str
  | .bilingual =>
    "请翻译以下字幕文本，每条字幕都要按照翻译规则输出（英文在上，中文在下），然后用 ===NEXT=== 分隔下一条字幕的翻译结果：\n\n".data
  | tt =>
    "请翻译以下字幕文本为".data ++ ttName tt ++ "，每条字幕的翻译结果用 ===NEXT=== 分隔：\n\n".data

/-- The delimiter-tagged user prompt of the batch path. -/
def batchUserPrompt (tt : TType) (texts : List Str) : Str :=
  batchHeader tt ++ numberedTexts 1 texts

/-- The translation service: call count ↦ response or raised error. -/
structure Oracle where
  resp : Nat → Option Str

/-- Removal of the `字幕X：` label from a cleaned segment
(`re.sub(r'^字幕\d+[:：]\s*', '', cleaned)`: anchored, so at most one
replacement at the start). -/
def stripLabel (s : Str) : Str :=
  if "字幕".data.isPrefixOf s then
    let r1 := s.drop 2
    let ds := r1.takeWhile Char.isDigit
    if ds = [] then s
    else
      match r1.drop ds.length with
      | c :: r2 => if c = ':' || c = '：' then r2.dropWhile pyIsSpace else s
      | [] => s
  else s

/-- Cleaning of one delimiter-separated part inside
`_parse_batch_translation`: strip, drop the label, strip again; empty
results are discarded. -/
def cleanPart (part : Str) : Option Str :=
  let c1 := pyStrip part
  if c1 = [] then none
  else
    let c2 := pyStrip (stripLabel c1)
    if c2 = [] then none else some c2

/-- `SubtitleTranslator._parse_batch_translation` (the `expected_count`
argument only feeds log output and is omitted). -/
def parseBatchTranslation (translatedText : Str) : List Str :=
  (splitOnSub ("===NEXT===".data) translatedText).filterMap cleanPart

/-- The pad-then-truncate acceptance step of `translate_texts_batch`:
`while len(parts) < len(texts): parts.append(texts[len(parts)])` followed
by `parts[:len(texts)]`. -/
def padTruncate (parts texts : List Str) : List Str :=
  (parts ++ texts.drop parts.length).take texts.length

/-- The retry loop of `translate_single_text`, counting attempts by the
remaining number of rounds.  Each attempt sends the single-text prompt
(system prompt, user content = the text itself); on success the stripped
`ai_text` is returned, on the final failure the original text. -/
def singleAttempts (o : Oracle) (tt : TType) (text : Str) :
    Nat → Nat → Str × Nat × List (Str × Str)
  | 0, k => (text, k, [])
  | remaining + 1, k =>
    match o.resp k with
    | some r => (pyStrip r, k + 1, [(systemPrompt tt, text)])
    | none =>
      if remaining = 0 then (text, k + 1, [(systemPrompt tt, text)])
      else
        let z := singleAttempts o tt text remaining (k + 1)
        (z.1, z.2.1, (systemPrompt tt, text) :: z.2.2)

/-- `SubtitleTranslator.translate_single_text`. -/
def translate_single_text (o : Oracle) (k : Nat) (text : Str) (tt : TType)
    (maxRetries : Nat) : Str × Nat × List (Str × Str) :=
  singleAttempts o tt text maxRetries k

/-- `SubtitleTranslator._translate_one_by_one` (the pacing sleeps have no
observable effect in the model). -/
def translate_one_by_one (o : Oracle) (tt : TType) (maxRetries : Nat) :
    List Str → Nat → List Str × Nat × List (Str × Str)
  | [], k => ([], k, [])
  | t :: ts, k =>
    let z1 := translate_single_text o k t tt maxRetries
    let z2 := translate_one_by_one o tt maxRetries ts z1.2.1
    (z1.1 :: z2.1, z2.2.1, z1.2.2 ++ z2.2.2)

/-- The retry loop of `translate_texts_batch` (reached only when
`len(texts) >= 2`).  Each attempt sends the delimiter-tagged batch
prompt; a parsed result with at least `len(texts) - 1` cleaned segments
is padded/truncated and accepted, a smaller one triggers the per-item
fallback for the whole batch, and exhaustion of the retries after errors
does the same.  With zero rounds the loop body never runs and the
original texts are returned (`return texts`). -/
def batchAttempts (o : Oracle) (tt : TType) (texts : List Str) (maxRetries : Nat) :
    Nat → Nat → List Str × Nat × List (Str × Str)
  | 0, k => (texts, k, [])
  | remaining + 1, k =>
    match o.resp k with
    | some r =>
      let parts := parseBatchTranslation r
      if texts.length - 1 ≤ parts.length then
        (padTruncate parts texts, k + 1, [(systemPrompt tt, batchUserPrompt tt texts)])
      else
        let z := translate_one_by_one o tt maxRetries texts (k + 1)
        (z.1, z.2.1, (systemPrompt tt, batchUserPrompt tt texts) :: z.2.2)
    | none =>
      if remaining = 0 then
        let z := translate_one_by_one o tt maxRetries texts (k + 1)
        (z.1, z.2.1, (systemPrompt tt, batchUserPrompt tt texts) :: z.2.2)
      else
        let z := batchAttempts o tt texts maxRetries remaining (k + 1)
        (z.1, z.2.1, (systemPrompt tt, batchUserPrompt tt texts) :: z.2.2)

/-- `SubtitleTranslator.translate_texts_batch`. -/
def translate_texts_batch (o : Oracle) (k : Nat) (texts : List Str) (tt : TType)
    (maxRetries : Nat) : List Str × Nat × List (Str × Str) :=
  if texts = [] then ([], k, [])
  else if texts.length ≤ 1 then translate_one_by_one o tt maxRetries texts k
  else batchAttempts o tt texts maxRetries maxRetries k

/-- `SubtitleTranslator._is_chinese`.  The source compares
`chinese_chars > total_chars * 0.3` with the float literal `0.3`; the
model uses the exact ratio `10 * chinese > 3 * total`.  Both call-site
branches of `format_translated_subtitle` return the same string, so no
observable behaviour depends on this predicate. -/
def isChineseText (s : Str) : Bool :=
  let chineseChars := (s.filter (fun c => 0x4e00 ≤ c.toNat && c.toNat ≤ 0x9fff)).length
  let totalChars := (s.filter (fun c => !pyIsSpace c)).length
  if totalChars > 0 then 10 * chineseChars > 3 * totalChars else false

/-- `SubtitleTranslator.format_translated_subtitle`. -/
def format_translated_subtitle (originalText translatedText : Str) (tt : TType) : Str :=
  match tt with
  | .bilingual =>
    let lines := splitChar '\n' translatedText
    if 2 ≤ lines.length then translatedText
    else if isChineseText originalText then translatedText ++ '\n' :: originalText
    else translatedText ++ '\n' :: originalText
  | _ => translatedText

/-- Lines appended by `generate_srt` (index, timeline, text, blank). -/
def genLines : List Record → List Str
  | [] => []
  | r :: rs => intToChars r.index :: r.timeline :: r.text :: [] :: genLines rs

/-- `SubtitleTranslator.generate_srt`: `'\n'.join` of the appended lines. -/
def generate_srt (rs : List Record) : Str :=
  joinChar '\n' (genLines rs)

/-- The serialised form of one record inside `generate_srt` output. -/
def blockStr (r : Record) : Str :=
  (intToChars r.index ++ ('\n' :: r.timeline)) ++ ('\n' :: r.text)

/-- The serialised records joined by blank lines: `generate_srt rs` is
`serBlocks rs` followed by one final newline (for non-empty `rs`). -/
def serBlocks : List Record → Str
  | [] => []
  | [r] => blockStr r
  | r :: rs => blockStr r ++ '\n' :: '\n' :: serBlocks rs

/-!
## The file-level pipeline `translate_srt_file`

File input/output and logging are outside the model; the content string
is taken directly and the list of translated records (what is then fed to
`generate_srt` and written out) is returned.  `none` models the raised
`ValueError` (empty parse, or `range` with step `0`).
-/

/-- `subtitles[i:i + batch_size]` chunking (`range(0, len, batch_size)`),
fuel-driven. -/
def chunkAux (bs : Nat) : Nat → List Record → List (List Record)
  | _, [] => []
  | 0, l => [l]
  | fuel + 1, l => l.take bs :: chunkAux bs fuel (l.drop bs)

/-- The batches processed by `translate_srt_file` (`bs ≥ 1`). -/
def chunkList (bs : Nat) (l : List Record) : List (List Record) :=
  chunkAux bs l.length l

/-- The inner formatting loop of one batch:
`translated_texts[j] if j < len(translated_texts) else original_text`,
then `format_translated_subtitle`, keeping index and timeline. -/
def formatBatch (tt : TType) : List Record → List Str → List Record
  | [], _ => []
  | r :: rs, ts =>
    { index := r.index, timeline := r.timeline,
      text := format_translated_subtitle r.text (ts.headD r.text) tt }
      :: formatBatch tt rs ts.tail

/-- The batch loop of `translate_srt_file`: translate each chunk with
`translate_texts_batch` (call-site default `max_retries = 3`), format it,
and concatenate. -/
def translateBatchesLoop (o : Oracle) (tt : TType) :
    List (List Record) → Nat → List Record
  | [], _ => []
  | batch :: rest, k =>
    let z := translate_texts_batch o k (batch.map (fun r => r.text)) tt 3
    formatBatch tt batch z.1 ++ translateBatchesLoop o tt rest z.2.1

/-- `translate_srt_file`, from content string to the translated record
list (the mode is already a `TType`, so the unsupported-type `ValueError`
cannot arise; the missing-file error is outside the model). -/
def translate_srt_file (o : Oracle) (k : Nat) (content : Str) (tt : TType)
    (batchSize : Nat) : Option (List Record) :=
  if batchSize = 0 then none
  else
    let subs := parse_srt content
    if subs = [] then none
    else some (translateBatchesLoop o tt (chunkList batchSize subs) k)

/-- `s` contains no occurrence of the separator `\n\s*\n`: after any of
its newlines the following whitespace run holds no further newline. -/
def NoSepIn (s : Str) : Prop :=
  ∀ u v : Str, s = u ++ '\n' :: v → afterLastNl v = none

/-- The invariants of a record that survive re-serialisation: its
timeline is a single line carrying the marker, every line of its text has
substance, and its text ends in non-whitespace. -/
def ValidRecord (r : Record) : Prop :=
  '\n' ∉ r.timeline
  ∧ containsSub ("-->".data) r.timeline = true
  ∧ (∀ l ∈ splitChar '\n' r.text, ∃ c ∈ l, pyIsSpace c = false)
  ∧ (∀ c, r.text.getLast? = some c → pyIsSpace c = false)
  ∧ r.text ≠ []

/-- An adapter whose every call raises (used to instantiate theorems at
concrete inputs). -/
def oracleNone : Oracle := ⟨fun _ => none⟩

/-- An adapter that always answers with the same text. -/
def oracleConst (r : Str) : Oracle := ⟨fun _ => some r⟩

/-!
## Support lemmas: the batch translator
-/

theorem padTruncate_length (parts texts : List Str) :
    (padTruncate parts texts).length = texts.length := by
  simp only [padTruncate, List.length_take, List.length_append, List.length_drop]
  omega

theorem padTruncate_getElem?_left (parts texts : List Str) {i : Nat}
    (h₁ : i < parts.length) (h₂ : i < texts.length) :
    (padTruncate parts texts)[i]? = parts[i]? := by
  rw [padTruncate, List.getElem?_take_of_lt h₂, List.getElem?_append_left h₁]

theorem padTruncate_getElem?_right (parts texts : List Str) {i : Nat}
    (h₁ : parts.length ≤ i) (h₂ : i < texts.length) :
    (padTruncate parts texts)[i]? = texts[i]? := by
  rw [padTruncate, List.getElem?_take_of_lt h₂, List.getElem?_append_right h₁,
    List.getElem?_drop]
  congr 1
  omega

theorem padTruncate_getLast? (parts texts : List Str)
    (h : parts.length < texts.length) :
    (padTruncate parts texts).getLast? = texts.getLast? := by
  have hlen : (parts ++ texts.drop parts.length).length = texts.length := by
    simp only [List.length_append, List.length_drop]; omega
  rw [padTruncate, ← hlen, List.take_of_length_le (Nat.le_refl _),
    List.getLast?_append_of_ne_nil, List.getLast?_drop, if_neg (by omega)]
  intro hnil
  have := congrArg List.length hnil
  simp only [List.length_drop, List.length_nil] at this
  omega

theorem singleAttempts_sent (o : Oracle) (tt : TType) (t : Str) :
    ∀ mr k, ∀ p ∈ (singleAttempts o tt t mr k).2.2, p = (systemPrompt tt, t) := by
  intro mr
  induction mr with
  | zero => intro k p hp; simp [singleAttempts] at hp
  | succ m ih =>
    intro k p hp
    cases h : o.resp k with
    | some r =>
      simp [singleAttempts, h] at hp
      exact hp
    | none =>
      by_cases hm : m = 0
      · subst hm; simp [singleAttempts, h] at hp; exact hp
      · simp only [singleAttempts, h, if_neg hm, List.mem_cons] at hp
        rcases hp with hp | hp
        · exact hp
        · exact ih (k + 1) p hp

theorem singleAttempts_allFail (o : Oracle) (tt : TType) (t : Str) :
    ∀ mr k, (∀ b, b < mr → o.resp (k + b) = none) →
      (singleAttempts o tt t mr k).1 = t := by
  intro mr
  induction mr with
  | zero => intro k _; rfl
  | succ m ih =>
    intro k hfail
    have h0 : o.resp k = none := by
      have := hfail 0 (Nat.succ_pos m)
      simpa using this
    by_cases hm : m = 0
    · subst hm; simp [singleAttempts, h0]
    · simp only [singleAttempts, h0, if_neg hm]
      exact ih (k + 1) (fun b hb => by
        have := hfail (b + 1) (by omega)
        simpa [Nat.add_assoc, Nat.add_comm 1 b] using this)

theorem translate_one_by_one_length (o : Oracle) (tt : TType) (mr : Nat) :
    ∀ ts k, (translate_one_by_one o tt mr ts k).1.length = ts.length := by
  intro ts
  induction ts with
  | nil => intro k; rfl
  | cons t ts ih =>
    intro k
    simp [translate_one_by_one, ih]

theorem translate_one_by_one_sent (o : Oracle) (tt : TType) (mr : Nat) :
    ∀ ts k, ∀ p ∈ (translate_one_by_one o tt mr ts k).2.2,
      ∃ t ∈ ts, p = (systemPrompt tt, t) := by
  intro ts
  induction ts with
  | nil => intro k p hp; simp [translate_one_by_one] at hp
  | cons t ts ih =>
    intro k p hp
    simp only [translate_one_by_one, List.mem_append] at hp
    rcases hp with hp | hp
    · exact ⟨t, List.mem_cons_self .., singleAttempts_sent o tt t mr k p hp⟩
    · obtain ⟨t', ht', hp⟩ := ih _ p hp
      exact ⟨t', List.mem_cons_of_mem _ ht', hp⟩

theorem batchAttempts_length (o : Oracle) (tt : TType) (texts : List Str) (mr : Nat) :
    ∀ rem k, (batchAttempts o tt texts mr rem k).1.length = texts.length := by
  intro rem
  induction rem with
  | zero => intro k; rfl
  | succ m ih =>
    intro k
    cases h : o.resp k with
    | some r =>
      by_cases hc : texts.length - 1 ≤ (parseBatchTranslation r).length
      · simp [batchAttempts, h, hc, padTruncate_length]
      · simp [batchAttempts, h, hc, translate_one_by_one_length]
    | none =>
      by_cases hm : m = 0
      · subst hm; simp [batchAttempts, h, translate_one_by_one_length]
      · simp [batchAttempts, h, hm, ih]

/-- Behaviour of the batch retry loop when the first `a` calls raise and
the call after them returns `r` with enough cleaned segments. -/
theorem batchAttempts_accept (o : Oracle) (tt : TType) (texts : List Str)
    (mr : Nat) (r : Str)
    (hc : texts.length - 1 ≤ (parseBatchTranslation r).length) :
    ∀ a rem k, a < rem → (∀ b, b < a → o.resp (k + b) = none) →
      o.resp (k + a) = some r →
      batchAttempts o tt texts mr rem k
        = (padTruncate (parseBatchTranslation r) texts, k + a + 1,
            List.replicate (a + 1) (systemPrompt tt, batchUserPrompt tt texts)) := by
  intro a
  induction a with
  | zero =>
    intro rem k hrem _ hr
    obtain ⟨m, rfl⟩ := Nat.exists_eq_succ_of_ne_zero (by omega : rem ≠ 0)
    rw [Nat.add_zero] at hr
    simp [batchAttempts, hr, hc]
  | succ a ih =>
    intro rem k hrem hfail hr
    obtain ⟨m, rfl⟩ := Nat.exists_eq_succ_of_ne_zero (by omega : rem ≠ 0)
    have h0 : o.resp k = none := by
      have := hfail 0 (Nat.succ_pos a); simpa using this
    have hm : m ≠ 0 := by omega
    simp only [batchAttempts, h0, if_neg hm]
    rw [ih m (k + 1) (by omega)
      (fun b hb => by
        have := hfail (b + 1) (by omega)
        simpa [Nat.add_assoc, Nat.add_comm 1 b] using this)
      (by
        have : k + 1 + a = k + (a + 1) := by omega
        rw [this]; exact hr)]
    refine Prod.ext (rfl) (Prod.ext ?_ ?_) <;> simp [List.replicate_succ]
    omega

/-- Behaviour of the batch retry loop when the first `a` calls raise and
the call after them returns `r` with too few cleaned segments: per-item
fallback for the whole batch. -/
theorem batchAttempts_reject (o : Oracle) (tt : TType) (texts : List Str)
    (mr : Nat) (r : Str)
    (hc : (parseBatchTranslation r).length < texts.length - 1) :
    ∀ a rem k, a < rem → (∀ b, b < a → o.resp (k + b) = none) →
      o.resp (k + a) = some r →
      batchAttempts o tt texts mr rem k
        = ((translate_one_by_one o tt mr texts (k + a + 1)).1,
            (translate_one_by_one o tt mr texts (k + a + 1)).2.1,
            List.replicate (a + 1) (systemPrompt tt, batchUserPrompt tt texts)
              ++ (translate_one_by_one o tt mr texts (k + a + 1)).2.2) := by
  intro a
  induction a with
  | zero =>
    intro rem k hrem _ hr
    obtain ⟨m, rfl⟩ := Nat.exists_eq_succ_of_ne_zero (by omega : rem ≠ 0)
    rw [Nat.add_zero] at hr
    simp [batchAttempts, hr, Nat.not_le.mpr hc]
  | succ a ih =>
    intro rem k hrem hfail hr
    obtain ⟨m, rfl⟩ := Nat.exists_eq_succ_of_ne_zero (by omega : rem ≠ 0)
    have h0 : o.resp k = none := by
      have := hfail 0 (Nat.succ_pos a); simpa using this
    have hm : m ≠ 0 := by omega
    simp only [batchAttempts, h0, if_neg hm]
    rw [ih m (k + 1) (by omega)
      (fun b hb => by
        have := hfail (b + 1) (by omega)
        simpa [Nat.add_assoc, Nat.add_comm 1 b] using this)
      (by
        have : k + 1 + a = k + (a + 1) := by omega
        rw [this]; exact hr)]
    have hk : k + 1 + a + 1 = k + (a + 1) + 1 := by omega
    rw [hk]
    simp [List.replicate_succ]

/-- Behaviour of the batch retry loop when every one of the `rem ≥ 1`
calls raises: per-item fallback for the whole batch. -/
theorem batchAttempts_allFail (o : Oracle) (tt : TType) (texts : List Str)
    (mr : Nat) :
    ∀ rem k, 1 ≤ rem → (∀ b, b < rem → o.resp (k + b) = none) →
      batchAttempts o tt texts mr rem k
        = ((translate_one_by_one o tt mr texts (k + rem)).1,
            (translate_one_by_one o tt mr texts (k + rem)).2.1,
            List.replicate rem (systemPrompt tt, batchUserPrompt tt texts)
              ++ (translate_one_by_one o tt mr texts (k + rem)).2.2) := by
  intro rem
  induction rem with
  | zero => intro k h; omega
  | succ m ih =>
    intro k _ hfail
    have h0 : o.resp k = none := by
      have := hfail 0 (Nat.succ_pos m); simpa using this
    by_cases hm : m = 0
    · subst hm; simp [batchAttempts, h0]
    · simp only [batchAttempts, h0, if_neg hm]
      rw [ih (k + 1) (by omega)
        (fun b hb => by
          have := hfail (b + 1) (by omega)
          simpa [Nat.add_assoc, Nat.add_comm 1 b] using this)]
      have hk : k + 1 + m = k + (m + 1) := by omega
      rw [hk]
      simp [List.replicate_succ]

/-- `translate_texts_batch` reduces to the retry loop on real batches. -/
theorem translate_texts_batch_eq_batchAttempts (o : Oracle) (k : Nat)
    (texts : List Str) (tt : TType) (mr : Nat) (hN : 2 ≤ texts.length) :
    translate_texts_batch o k texts tt mr = batchAttempts o tt texts mr mr k := by
  have h1 : texts ≠ [] := by
    intro h; subst h; simp at hN
  have h2 : ¬ texts.length ≤ 1 := by omega
  simp [translate_texts_batch, h1, h2]

/-!
## The claims about the batch translator
-/

/-- C1: for every non-empty input list and every supported mode,
`translate_texts_batch` returns exactly as many strings as it was given,
whichever of the three paths (batch-parse, padding, per-item fallback)
produced them. -/
theorem c1_batch_result_length (o : Oracle) (k : Nat) (texts : List Str)
    (tt : TType) (mr : Nat) (hne : texts ≠ []) :
    (translate_texts_batch o k texts tt mr).1.length = texts.length := by
  by_cases h1 : texts.length ≤ 1
  · simp [translate_texts_batch, hne, h1, translate_one_by_one_length]
  · rw [translate_texts_batch_eq_batchAttempts o k texts tt mr (by omega)]
    exact batchAttempts_length o tt texts mr mr k

theorem c1_witness :
    ["a".data, "b".data, "c".data] ≠ ([] : List Str)
      ∧ (translate_texts_batch oracleNone 0 ["a".data, "b".data, "c".data]
          TType.chinese 3).1.length = 3 :=
  ⟨by decide, c1_batch_result_length oracleNone 0 _ TType.chinese 3 (by decide)⟩

/-- C2: on a batch of `N ≥ 2` texts, if the first successful adapter call
(after `a` raising calls, `a < max_retries`) yields at least `N - 1`
cleaned segments, the batch result is accepted: parsed segments are kept
at their positions, missing trailing positions are padded with the
original text of the same index, extras beyond `N` are dropped, and with
exactly `N - 1` segments the last output entry is the last original
text. -/
theorem c2_batch_acceptance (o : Oracle) (k : Nat) (texts : List Str)
    (tt : TType) (mr a : Nat) (r : Str)
    (hN : 2 ≤ texts.length)
    (hfail : ∀ b, b < a → o.resp (k + b) = none)
    (ha : a < mr)
    (hr : o.resp (k + a) = some r)
    (hcount : texts.length - 1 ≤ (parseBatchTranslation r).length) :
    (translate_texts_batch o k texts tt mr).1.length = texts.length
    ∧ (∀ i, i < (parseBatchTranslation r).length → i < texts.length →
        (translate_texts_batch o k texts tt mr).1[i]? = (parseBatchTranslation r)[i]?)
    ∧ (∀ i, (parseBatchTranslation r).length ≤ i → i < texts.length →
        (translate_texts_batch o k texts tt mr).1[i]? = texts[i]?)
    ∧ ((parseBatchTranslation r).length = texts.length - 1 →
        (translate_texts_batch o k texts tt mr).1.getLast? = texts.getLast?) := by
  rw [translate_texts_batch_eq_batchAttempts o k texts tt mr hN,
    batchAttempts_accept o tt texts mr r hcount a mr k ha hfail hr]
  refine ⟨padTruncate_length _ _, ?_, ?_, ?_⟩
  · intro i h₁ h₂; exact padTruncate_getElem?_left _ _ h₁ h₂
  · intro i h₁ h₂; exact padTruncate_getElem?_right _ _ h₁ h₂
  · intro hlen; exact padTruncate_getLast? _ _ (by omega)

theorem c2_witness :
    (2 ≤ ([ "x".data, "y".data ] : List Str).length)
      ∧ (translate_texts_batch (oracleConst ("A".data)) 0 ["x".data, "y".data]
          TType.chinese 3).1.getLast? = some ("y".data) := by
  refine ⟨by decide, ?_⟩
  have h := c2_batch_acceptance (oracleConst ("A".data)) 0 ["x".data, "y".data]
    TType.chinese 3 0 ("A".data) (by decide) (fun b hb => by omega) (by decide)
    (by decide) (by decide)
  have hlast := h.2.2.2 (by decide)
  rw [hlast]
  decide

/-- C3: on a batch of `N ≥ 2` texts, if the first successful adapter call
yields fewer than `N - 1` cleaned segments, or every one of the
`max_retries` calls raises, the whole batch is translated per item: the
result is exactly the per-item fallback's result for the entire batch. -/
theorem c3_full_fallback (o : Oracle) (k : Nat) (texts : List Str)
    (tt : TType) (mr : Nat) (hN : 2 ≤ texts.length) :
    (∀ a r, (∀ b, b < a → o.resp (k + b) = none) → a < mr →
        o.resp (k + a) = some r →
        (parseBatchTranslation r).length < texts.length - 1 →
        (translate_texts_batch o k texts tt mr).1
          = (translate_one_by_one o tt mr texts (k + a + 1)).1)
    ∧ ((∀ b, b < mr → o.resp (k + b) = none) → 1 ≤ mr →
        (translate_texts_batch o k texts tt mr).1
          = (translate_one_by_one o tt mr texts (k + mr)).1) := by
  constructor
  · intro a r hfail ha hr hc
    rw [translate_texts_batch_eq_batchAttempts o k texts tt mr hN,
      batchAttempts_reject o tt texts mr r hc a mr k ha hfail hr]
  · intro hfail hmr
    rw [translate_texts_batch_eq_batchAttempts o k texts tt mr hN,
      batchAttempts_allFail o tt texts mr mr k hmr hfail]

theorem c3_witness :
    (translate_texts_batch oracleNone 0 ["x".data, "y".data] TType.english 1).1
      = (translate_one_by_one oracleNone TType.english 1 ["x".data, "y".data] 1).1 :=
  (c3_full_fallback oracleNone 0 ["x".data, "y".data] TType.english 1
    (by decide)).2 (fun b _ => rfl) (by decide)

/-- C4: if every one of the `max_retries` adapter calls raises,
`translate_single_text` returns the original text unchanged (and, being a
total function of the oracle, never propagates the failure). -/
theorem c4_single_all_retries_fail (o : Oracle) (k : Nat) (text : Str)
    (tt : TType) (mr : Nat)
    (hfail : ∀ b, b < mr → o.resp (k + b) = none) :
    (translate_single_text o k text tt mr).1 = text :=
  singleAttempts_allFail o tt text mr k hfail

theorem c4_witness :
    (translate_single_text oracleNone 0 ("Hello".data) TType.bilingual 3).1
      = "Hello".data :=
  c4_single_all_retries_fail oracleNone 0 ("Hello".data) TType.bilingual 3
    (fun _ _ => rfl)

/-- C8: with at most one text, `translate_texts_batch` is the per-item
path: its full behaviour (result, call count, sent prompts) equals
`_translate_one_by_one`'s, and every prompt it sends is a single-text
prompt (user content one of the input texts) — the delimiter-tagged batch
prompt is never sent. -/
theorem c8_small_batch_per_item (o : Oracle) (k : Nat) (texts : List Str)
    (tt : TType) (mr : Nat) (h : texts.length ≤ 1) :
    translate_texts_batch o k texts tt mr = translate_one_by_one o tt mr texts k
    ∧ ∀ p ∈ (translate_texts_batch o k texts tt mr).2.2,
        ∃ t ∈ texts, p = (systemPrompt tt, t) := by
  have heq : translate_texts_batch o k texts tt mr
      = translate_one_by_one o tt mr texts k := by
    cases texts with
    | nil => rfl
    | cons t ts =>
      cases ts with
      | nil => simp [translate_texts_batch]
      | cons t' ts' => simp at h
  exact ⟨heq, by
    rw [heq]
    exact translate_one_by_one_sent o tt mr texts k⟩

theorem c8_witness :
    translate_texts_batch oracleNone 0 ["hi".data] TType.bilingual 3
      = translate_one_by_one oracleNone TType.bilingual 3 ["hi".data] 0 :=
  (c8_small_batch_per_item oracleNone 0 ["hi".data] TType.bilingual 3
    (by decide)).1

/-- C9: in bilingual mode a translated text that already spans two or
more lines is passed through unchanged. -/
theorem c9_bilingual_multiline_unchanged (originalText translatedText : Str)
    (h : 2 ≤ (splitChar '\n' translatedText).length) :
    format_translated_subtitle originalText translatedText TType.bilingual
      = translatedText := by
  simp [format_translated_subtitle, h]

theorem c9_witness :
    (2 ≤ (splitChar '\n' ("你好\nHello".data)).length)
      ∧ format_translated_subtitle ("Hello".data) ("你好\nHello".data)
          TType.bilingual = "你好\nHello".data :=
  ⟨by decide,
    c9_bilingual_multiline_unchanged ("Hello".data) ("你好\nHello".data)
      (by decide)⟩

/-- C10: the empty input list returns the empty list at once: no adapter
call is made (the call count is unchanged and no prompt is sent) and the
per-item path is not entered. -/
theorem c10_empty_batch (o : Oracle) (k : Nat) (tt : TType) (mr : Nat) :
    translate_texts_batch o k [] tt mr = ([], k, []) := rfl

/-!
## Support lemmas: the file pipeline
-/

theorem formatBatch_map_index_timeline (tt : TType) :
    ∀ (rs : List Record) (ts : List Str),
      (formatBatch tt rs ts).map (fun r => (r.index, r.timeline))
        = rs.map (fun r => (r.index, r.timeline)) := by
  intro rs
  induction rs with
  | nil => intro ts; rfl
  | cons r rs ih => intro ts; simp [formatBatch, ih]

theorem chunkAux_flatten (bs : Nat) (hbs : 1 ≤ bs) :
    ∀ fuel (l : List Record), l.length ≤ fuel → (chunkAux bs fuel l).flatten = l := by
  intro fuel
  induction fuel with
  | zero =>
    intro l hl
    have : l = [] := List.length_eq_zero.mp (by omega)
    subst this; rfl
  | succ m ih =>
    intro l hl
    cases l with
    | nil => rfl
    | cons x xs =>
      simp only [chunkAux, List.flatten_cons]
      rw [ih ((x :: xs).drop bs)
        (by simp only [List.length_drop, List.length_cons] at hl ⊢; omega)]
      exact List.take_append_drop bs (x :: xs)

theorem translateBatchesLoop_map_index_timeline (o : Oracle) (tt : TType) :
    ∀ (chunks : List (List Record)) (k : Nat),
      (translateBatchesLoop o tt chunks k).map (fun r => (r.index, r.timeline))
        = chunks.flatten.map (fun r => (r.index, r.timeline)) := by
  intro chunks
  induction chunks with
  | nil => intro k; rfl
  | cons batch rest ih =>
    intro k
    simp only [translateBatchesLoop, List.flatten_cons, List.map_append]
    rw [formatBatch_map_index_timeline, ih]

/-- C5: for every record parsed from the input, the output of
`translate_srt_file` has exactly one record at the same position with the
same index and the same timeline string — only the text field is
replaced, so no record is dropped or misaligned. -/
theorem c5_records_preserved (o : Oracle) (k : Nat) (content : Str)
    (tt : TType) (bs : Nat) (out : List Record)
    (hout : translate_srt_file o k content tt bs = some out) :
    out.map (fun r => (r.index, r.timeline))
      = (parse_srt content).map (fun r => (r.index, r.timeline)) := by
  by_cases hbs : bs = 0
  · simp [translate_srt_file, hbs] at hout
  · by_cases hsubs : parse_srt content = []
    · simp [translate_srt_file, hbs, hsubs] at hout
    · have : out = translateBatchesLoop o tt (chunkList bs (parse_srt content)) k := by
        simp [translate_srt_file, hbs, hsubs] at hout
        exact hout.symm
      subst this
      rw [translateBatchesLoop_map_index_timeline, chunkList,
        chunkAux_flatten bs (by omega) _ _ (Nat.le_refl _)]

theorem c5_witness :
    translate_srt_file oracleNone 0
        ("1\n00:00:01,000 --> 00:00:02,000\nHello\n\n2\n00:00:03,000 --> 00:00:04,000\nWorld".data)
        TType.chinese 50
      = some [⟨1, "00:00:01,000 --> 00:00:02,000".data, "Hello".data⟩,
              ⟨2, "00:00:03,000 --> 00:00:04,000".data, "World".data⟩]
    ∧ ((translate_srt_file oracleNone 0
        ("1\n00:00:01,000 --> 00:00:02,000\nHello\n\n2\n00:00:03,000 --> 00:00:04,000\nWorld".data)
        TType.chinese 50).getD []).map (fun r => (r.index, r.timeline))
      = [((1 : Int), "00:00:01,000 --> 00:00:02,000".data),
         ((2 : Int), "00:00:03,000 --> 00:00:04,000".data)] := by
  refine ⟨by decide, ?_⟩
  have h := c5_records_preserved oracleNone 0
    ("1\n00:00:01,000 --> 00:00:02,000\nHello\n\n2\n00:00:03,000 --> 00:00:04,000\nWorld".data)
    TType.chinese 50
    [⟨1, "00:00:01,000 --> 00:00:02,000".data, "Hello".data⟩,
     ⟨2, "00:00:03,000 --> 00:00:04,000".data, "World".data⟩]
    (by decide)
  rw [show (translate_srt_file oracleNone 0
      ("1\n00:00:01,000 --> 00:00:02,000\nHello\n\n2\n00:00:03,000 --> 00:00:04,000\nWorld".data)
      TType.chinese 50)
    = some [⟨1, "00:00:01,000 --> 00:00:02,000".data, "Hello".data⟩,
            ⟨2, "00:00:03,000 --> 00:00:04,000".data, "World".data⟩] from by decide]
  rw [Option.getD_some]
  rw [h]
  decide

/-!
## Support lemmas: the SRT parser
-/

theorem parseBlocksLoop_eq_filterMap :
    ∀ bs : List Str, parseBlocksLoop bs = bs.filterMap parseBlockFn := by
  intro bs
  induction bs with
  | nil => rfl
  | cons b bs ih =>
    simp only [parseBlocksLoop, List.filterMap_cons]
    cases h : parseBlockFn b <;> simp [h, ih]

/-- The acceptance condition of one block, read off declaratively. -/
theorem parseBlockFn_isSome_iff (b : Str) :
    (parseBlockFn b).isSome
      ↔ 3 ≤ (splitChar '\n' (pyStrip b)).length
        ∧ (pyIntParse ((splitChar '\n' (pyStrip b)).getD 0 [])).isSome
        ∧ containsSub ("-->".data) ((splitChar '\n' (pyStrip b)).getD 1 []) = true := by
  unfold parseBlockFn
  by_cases hsb : pyStrip b = []
  · rw [hsb]
    simp [splitChar]
  · simp only [hsb, ite_false]
    by_cases hlen : (splitChar '\n' (pyStrip b)).length < 3
    · simp only [hlen, ite_true, Option.isSome_none, Bool.false_eq_true, false_iff,
        not_and]
      intro h
      omega
    · simp only [hlen, ite_false]
      cases hint : pyIntParse ((splitChar '\n' (pyStrip b)).getD 0 []) with
      | none => simp
      | some idx =>
        by_cases hmark :
            containsSub ("-->".data) ((splitChar '\n' (pyStrip b)).getD 1 []) = true
        · simp [hmark]
          omega
        · simp [hmark]
          intro _
          omega

/-- C6: `parse_srt` splits the stripped input into blocks at blank-line
boundaries and keeps a block exactly when, after stripping, it has at
least 3 lines whose first parses as an integer and whose second contains
the time marker; every other block is skipped without error, and when no
block qualifies the result is the empty list. -/
theorem c6_parse_filter_characterisation (s : Str) :
    parse_srt s = (reSplitNlNl (pyStrip s)).filterMap parseBlockFn
    ∧ (∀ b, (parseBlockFn b).isSome
        ↔ 3 ≤ (splitChar '\n' (pyStrip b)).length
          ∧ (pyIntParse ((splitChar '\n' (pyStrip b)).getD 0 [])).isSome
          ∧ containsSub ("-->".data) ((splitChar '\n' (pyStrip b)).getD 1 []) = true)
    ∧ ((∀ b ∈ reSplitNlNl (pyStrip s), parseBlockFn b = none) → parse_srt s = []) := by
  refine ⟨parseBlocksLoop_eq_filterMap _, fun b => parseBlockFn_isSome_iff b, ?_⟩
  intro hall
  rw [parse_srt, parseBlocksLoop_eq_filterMap]
  exact List.filterMap_eq_nil_iff.mpr hall

theorem c6_witness :
    parse_srt ("garbage\nwithout structure\n\n12\nno marker here\nxyz".data) = [] :=
  (c6_parse_filter_characterisation
    ("garbage\nwithout structure\n\n12\nno marker here\nxyz".data)).2.2 (by decide)

/-!
## Round-trip of the integer index through `str` and `int`
-/

theorem digitChar_isDigit (m : Nat) : (digitChar m).isDigit = true := by
  unfold digitChar
  split <;> decide

theorem digitChar_toNat (m : Nat) (h : m < 10) : (digitChar m).toNat = 48 + m := by
  interval_cases m <;> decide

theorem isDigit_not_space (c : Char) (h : c.isDigit = true) : pyIsSpace c = false := by
  have h1 : c ≠ ' ' := fun e => by rw [e] at h; exact absurd h (by decide)
  have h2 : c ≠ '\t' := fun e => by rw [e] at h; exact absurd h (by decide)
  have h3 : c ≠ '\n' := fun e => by rw [e] at h; exact absurd h (by decide)
  have h4 : c ≠ '\r' := fun e => by rw [e] at h; exact absurd h (by decide)
  have h5 : c ≠ '\x0b' := fun e => by rw [e] at h; exact absurd h (by decide)
  have h6 : c ≠ '\x0c' := fun e => by rw [e] at h; exact absurd h (by decide)
  simp [pyIsSpace, h1, h2, h3, h4, h5, h6]

theorem isDigit_ne_nl (c : Char) (h : c.isDigit = true) : c ≠ '\n' :=
  fun e => by rw [e] at h; exact absurd h (by decide)

theorem natToCharsAux_append (fuel : Nat) :
    ∀ n acc, natToCharsAux fuel n acc = natToCharsAux fuel n [] ++ acc := by
  induction fuel with
  | zero => intro n acc; rfl
  | succ f ih =>
    intro n acc
    by_cases h : n < 10
    · simp [natToCharsAux, h]
    · simp only [natToCharsAux, if_neg h]
      rw [ih (n / 10) (digitChar (n % 10) :: acc), ih (n / 10) [digitChar (n % 10)]]
      simp

theorem natToCharsAux_ne_nil (fuel n : Nat) (h : 0 < fuel) :
    natToCharsAux fuel n [] ≠ [] := by
  obtain ⟨f, rfl⟩ := Nat.exists_eq_succ_of_ne_zero (by omega : fuel ≠ 0)
  by_cases hn : n < 10
  · simp [natToCharsAux, hn]
  · simp only [natToCharsAux, if_neg hn]
    rw [natToCharsAux_append]
    simp

theorem natToCharsAux_all_digits (fuel : Nat) :
    ∀ n c, c ∈ natToCharsAux fuel n [] → c.isDigit = true := by
  induction fuel with
  | zero => intro n c hc; simp [natToCharsAux] at hc
  | succ f ih =>
    intro n c hc
    by_cases hn : n < 10
    · simp [natToCharsAux, hn] at hc
      rw [hc]; exact digitChar_isDigit n
    · simp only [natToCharsAux, if_neg hn] at hc
      rw [natToCharsAux_append] at hc
      rcases List.mem_append.mp hc with hc | hc
      · exact ih (n / 10) c hc
      · simp at hc
        rw [hc]; exact digitChar_isDigit (n % 10)

theorem natToCharsAux_foldl (fuel : Nat) :
    ∀ n, n < fuel → ∀ a : Nat,
      (natToCharsAux fuel n []).foldl (fun a c => a * 10 + (c.toNat - 48)) a
        = a * 10 ^ (natToCharsAux fuel n []).length + n := by
  induction fuel with
  | zero => intro n hn; omega
  | succ f ih =>
    intro n hn a
    by_cases h : n < 10
    · simp only [natToCharsAux, if_pos h, List.foldl_cons, List.foldl_nil,
        List.length_cons, List.length_nil, pow_one, Nat.zero_add, pow_succ, pow_zero,
        Nat.one_mul]
      rw [digitChar_toNat n h]
      omega
    · have hdiv : n / 10 < f := by
        have h1 : n / 10 < n := Nat.div_lt_self (by omega) (by omega)
        omega
      simp only [natToCharsAux, if_neg h]
      rw [natToCharsAux_append, List.foldl_append, List.length_append]
      rw [ih (n / 10) hdiv a]
      simp only [List.foldl_cons, List.foldl_nil, List.length_cons, List.length_nil]
      rw [digitChar_toNat (n % 10) (Nat.mod_lt n (by omega))]
      have hmod : n / 10 * 10 + n % 10 = n := by omega
      have hpow : 10 ^ (List.length (natToCharsAux f (n / 10) []) + (0 + 1))
          = 10 ^ (List.length (natToCharsAux f (n / 10) [])) * 10 := by
        rw [pow_succ]
      rw [hpow]
      ring_nf
      omega

theorem digitsToNat_natToChars (n : Nat) : digitsToNat (natToChars n) = some n := by
  unfold digitsToNat natToChars
  rw [if_neg (natToCharsAux_ne_nil (n + 1) n (by omega))]
  rw [if_pos (List.all_eq_true.mpr (fun c hc => natToCharsAux_all_digits (n + 1) n c hc))]
  unfold digitsVal
  rw [natToCharsAux_foldl (n + 1) n (by omega) 0]
  simp

theorem natToChars_ne_nil (n : Nat) : natToChars n ≠ [] :=
  natToCharsAux_ne_nil (n + 1) n (by omega)

theorem natToChars_all_digits (n : Nat) : ∀ c ∈ natToChars n, c.isDigit = true :=
  fun c hc => natToCharsAux_all_digits (n + 1) n c hc

theorem intToChars_ne_nil (i : Int) : intToChars i ≠ [] := by
  unfold intToChars
  by_cases h : i < 0
  · simp [h]
  · simp [h, natToChars_ne_nil]

theorem intToChars_not_nl (i : Int) : ∀ c ∈ intToChars i, c ≠ '\n' := by
  intro c hc
  unfold intToChars at hc
  by_cases h : i < 0
  · rw [if_pos h] at hc
    rcases List.mem_cons.mp hc with hc | hc
    · rw [hc]; decide
    · exact isDigit_ne_nl c (natToChars_all_digits _ c hc)
  · rw [if_neg h] at hc
    exact isDigit_ne_nl c (natToChars_all_digits _ c hc)

theorem intToChars_not_space (i : Int) : ∀ c ∈ intToChars i, pyIsSpace c = false := by
  intro c hc
  unfold intToChars at hc
  by_cases h : i < 0
  · rw [if_pos h] at hc
    rcases List.mem_cons.mp hc with hc | hc
    · rw [hc]; decide
    · exact isDigit_not_space c (natToChars_all_digits _ c hc)
  · rw [if_neg h] at hc
    exact isDigit_not_space c (natToChars_all_digits _ c hc)

/-!
## `pyStrip` basics
-/

theorem dropWhile_eq_self_of_head (p : Char → Bool) (s : Str)
    (h : ∀ c, s.head? = some c → p c = false) : s.dropWhile p = s := by
  cases s with
  | nil => rfl
  | cons c rest => simp [List.dropWhile_cons, h c rfl]

theorem pyStrip_eq_self (s : Str)
    (hh : ∀ c, s.head? = some c → pyIsSpace c = false)
    (hl : ∀ c, s.getLast? = some c → pyIsSpace c = false) : pyStrip s = s := by
  unfold pyStrip
  rw [dropWhile_eq_self_of_head _ _ hh,
    dropWhile_eq_self_of_head _ _ (fun c hc => hl c (by rwa [List.head?_reverse] at hc))]
  exact List.reverse_reverse s

theorem pyStrip_eq_self_of_all (s : Str)
    (h : ∀ c ∈ s, pyIsSpace c = false) : pyStrip s = s :=
  pyStrip_eq_self s
    (fun c hc => h c (List.mem_of_mem_head? (by rw [Option.mem_def]; exact hc)))
    (fun c hc => h c (List.mem_of_mem_getLast? (by rw [Option.mem_def]; exact hc)))

/-- `int(str(n)) == n` for naturals. -/
theorem pyIntParse_natToChars (n : Nat) :
    pyIntParse (natToChars n) = some (n : Int) := by
  obtain ⟨c, cs, hc⟩ := List.exists_cons_of_ne_nil (natToChars_ne_nil n)
  have hcd : c.isDigit = true := by
    apply natToChars_all_digits n c
    rw [hc]; exact List.mem_cons_self ..
  have h1 : c ≠ '-' := fun e => by rw [e] at hcd; exact absurd hcd (by decide)
  have h2 : c ≠ '+' := fun e => by rw [e] at hcd; exact absurd hcd (by decide)
  have hstrip : pyStrip (natToChars n) = natToChars n :=
    pyStrip_eq_self_of_all _ (fun d hd => isDigit_not_space d (natToChars_all_digits n d hd))
  unfold pyIntParse
  rw [hstrip, hc]
  split
  · rename_i ds heq
    exact absurd (List.cons.injEq .. ▸ congrArg id heq :
      c = '-' ∧ cs = ds).1 h1
  · rename_i ds heq
    exact absurd (List.cons.injEq .. ▸ congrArg id heq :
      c = '+' ∧ cs = ds).1 h2
  · rw [← hc, digitsToNat_natToChars n]
    rfl

/-- `int(str(i)) == i`: the index survives serialisation. -/
theorem pyIntParse_intToChars (i : Int) :
    pyIntParse (intToChars i) = some i := by
  by_cases hneg : i < 0
  · have hstrip : pyStrip (intToChars i) = intToChars i :=
      pyStrip_eq_self_of_all _ (intToChars_not_space i)
    unfold pyIntParse
    rw [hstrip]
    unfold intToChars
    rw [if_pos hneg]
    show (digitsToNat (natToChars i.natAbs)).map (fun n => -(n : Int)) = some i
    rw [digitsToNat_natToChars]
    show some (-((i.natAbs : Nat) : Int)) = some i
    have hup : -((i.natAbs : Nat) : Int) = i := by omega
    rw [hup]
  · have h0 : intToChars i = natToChars i.natAbs := by
      unfold intToChars; rw [if_neg hneg]
    rw [h0, pyIntParse_natToChars]
    congr 1
    omega

/-!
## `splitChar` / `joinChar` algebra
-/

theorem splitChar_ne_nil (sep : Char) : ∀ s : Str, splitChar sep s ≠ [] := by
  intro s
  induction s with
  | nil => simp [splitChar]
  | cons c rest ih =>
    by_cases h : c = sep
    · simp [splitChar, h]
    · simp only [splitChar, if_neg h]
      cases hs : splitChar sep rest with
      | nil => simp
      | cons l ls => simp

theorem splitChar_sep_not_mem (sep : Char) :
    ∀ s : Str, ∀ l ∈ splitChar sep s, sep ∉ l := by
  intro s
  induction s with
  | nil =>
    intro l hl
    simp only [splitChar, List.mem_singleton] at hl
    simp [hl]
  | cons c rest ih =>
    intro l hl
    by_cases h : c = sep
    · simp only [splitChar, if_pos h, List.mem_cons] at hl
      rcases hl with hl | hl
      · simp [hl]
      · exact ih l hl
    · simp only [splitChar, if_neg h] at hl
      cases hs : splitChar sep rest with
      | nil => exact absurd hs (splitChar_ne_nil sep rest)
      | cons l0 ls =>
        rw [hs] at hl
        rcases List.mem_cons.mp hl with hl | hl
        · subst hl
          intro hmem
          rcases List.mem_cons.mp hmem with hmem | hmem
          · exact h hmem.symm
          · exact ih l0 (hs ▸ List.mem_cons_self ..) hmem
        · exact ih l (hs ▸ List.mem_cons_of_mem l0 hl)

theorem joinChar_splitChar (sep : Char) : ∀ s, joinChar sep (splitChar sep s) = s := by
  intro s
  induction s with
  | nil => rfl
  | cons c rest ih =>
    obtain ⟨l0, ls, hs⟩ := List.exists_cons_of_ne_nil (splitChar_ne_nil sep rest)
    by_cases h : c = sep
    · subst h
      simp only [splitChar, if_pos rfl]
      rw [hs]
      show ([] : Str) ++ c :: joinChar c (l0 :: ls) = c :: rest
      rw [List.nil_append, ← hs, ih]
    · simp only [splitChar, if_neg h]
      rw [hs]
      cases ls with
      | nil =>
        show c :: l0 = c :: rest
        have : joinChar sep [l0] = l0 := rfl
        rw [← this, ← hs, ih]
      | cons l1 ls' =>
        show (c :: l0) ++ sep :: joinChar sep (l1 :: ls') = c :: rest
        have : joinChar sep (l0 :: l1 :: ls') = l0 ++ sep :: joinChar sep (l1 :: ls') := rfl
        rw [List.cons_append, ← this, ← hs, ih]

theorem splitChar_of_not_mem (sep : Char) :
    ∀ a : Str, sep ∉ a → splitChar sep a = [a] := by
  intro a
  induction a with
  | nil => intro _; rfl
  | cons c a' ih =>
    intro hmem
    have hc : ¬ c = sep := fun e => hmem (e ▸ List.mem_cons_self ..)
    have ha' : sep ∉ a' := fun e => hmem (List.mem_cons_of_mem c e)
    simp only [splitChar, if_neg hc, ih ha']

theorem splitChar_append_cons (sep : Char) :
    ∀ a b : Str, sep ∉ a → splitChar sep (a ++ sep :: b) = a :: splitChar sep b := by
  intro a
  induction a with
  | nil =>
    intro b _
    simp [splitChar]
  | cons c a' ih =>
    intro b hmem
    have hc : ¬ c = sep := fun e => hmem (e ▸ List.mem_cons_self ..)
    have ha' : sep ∉ a' := fun e => hmem (List.mem_cons_of_mem c e)
    simp only [List.cons_append, splitChar, if_neg hc, List.append_eq, ih b ha']

theorem splitChar_joinChar (sep : Char) :
    ∀ ls : List Str, (∀ l ∈ ls, sep ∉ l) → ls ≠ [] →
      splitChar sep (joinChar sep ls) = ls := by
  intro ls
  induction ls with
  | nil => intro _ hne; exact absurd rfl hne
  | cons l ls' ih =>
    intro hmem _
    cases ls' with
    | nil =>
      show splitChar sep (joinChar sep [l]) = [l]
      exact splitChar_of_not_mem sep l (hmem l (List.mem_cons_self ..))
    | cons l1 ls'' =>
      have : joinChar sep (l :: l1 :: ls'') = l ++ sep :: joinChar sep (l1 :: ls'') := rfl
      rw [this, splitChar_append_cons sep l _ (hmem l (List.mem_cons_self ..)),
        ih (fun x hx => hmem x (List.mem_cons_of_mem l hx)) (by simp)]

/-!
## Properties of the blank-line separator scan
-/

theorem afterLastNl_eq_none_iff (s : Str) :
    afterLastNl s = none ↔ '\n' ∉ s.takeWhile pyIsSpace := by
  induction s with
  | nil => simp [afterLastNl]
  | cons c rest ih =>
    by_cases hc : pyIsSpace c
    · rw [List.takeWhile_cons, if_pos hc]
      by_cases hnl : c = '\n'
      · subst hnl
        simp only [afterLastNl, if_pos hc, List.mem_cons, true_or, not_true_eq_false,
          iff_false]
        cases h : afterLastNl rest <;> simp
      · simp only [afterLastNl, if_pos hc, List.mem_cons, hnl]
        cases h : afterLastNl rest with
        | some r => simp only [if_neg hnl] at *; simp [← ih, h]
        | none =>
          simp only [if_neg hnl]
          constructor
          · intro _ hmem
            rcases hmem with hmem | hmem
            · exact hnl hmem.symm
            · exact (ih.mp h) hmem
          · intro _; rfl
    · rw [List.takeWhile_cons, if_neg hc]
      simp [afterLastNl, hc]

theorem mem_takeWhile_append (p : Char → Bool) (a : Char) :
    ∀ x y : Str, a ∈ x.takeWhile p → a ∈ (x ++ y).takeWhile p := by
  intro x
  induction x with
  | nil => intro y h; simp at h
  | cons c x' ih =>
    intro y h
    rw [List.takeWhile_cons] at h
    by_cases hc : p c
    · rw [if_pos hc] at h
      rw [List.cons_append, List.takeWhile_cons, if_pos hc]
      rcases List.mem_cons.mp h with h | h
      · exact h ▸ List.mem_cons_self ..
      · exact List.mem_cons_of_mem c (ih y h)
    · rw [if_neg hc] at h
      simp at h

theorem afterLastNl_none_of_append (x y : Str)
    (h : afterLastNl (x ++ y) = none) : afterLastNl x = none := by
  rw [afterLastNl_eq_none_iff] at h ⊢
  exact fun hmem => h (mem_takeWhile_append pyIsSpace '\n' x y hmem)

theorem afterLastNl_some_length (s : Str) :
    ∀ r, afterLastNl s = some r → r.length < s.length := by
  induction s with
  | nil => intro r h; simp [afterLastNl] at h
  | cons c rest ih =>
    intro r h
    by_cases hc : pyIsSpace c
    · simp only [afterLastNl, if_pos hc] at h
      cases ha : afterLastNl rest with
      | some r' =>
        rw [ha] at h
        have := ih r' ha
        simp at h
        rw [← h]
        simp
        omega
      | none =>
        rw [ha] at h
        by_cases hnl : c = '\n'
        · rw [if_pos hnl] at h
          have hrr : rest = r := by injection h
          rw [← hrr]
          simp
        · rw [if_neg hnl] at h
          cases h
    · simp [afterLastNl, hc] at h

theorem afterLastNl_none_of_head (z : Str)
    (h : ∀ c, z.head? = some c → pyIsSpace c = false) : afterLastNl z = none := by
  cases z with
  | nil => rfl
  | cons c rest => simp [afterLastNl, h c rfl]

theorem afterLastNl_nl_cons (z : Str)
    (h : ∀ c, z.head? = some c → pyIsSpace c = false) :
    afterLastNl ('\n' :: z) = some z := by
  simp [afterLastNl, pyIsSpace, afterLastNl_none_of_head z h]

/-- A line with a non-whitespace character in it blocks the separator:
scanning whitespace from its start never reaches a newline. -/
theorem afterLastNl_none_of_line (a : Str) :
    '\n' ∉ a → (∃ c ∈ a, pyIsSpace c = false) → ∀ z, afterLastNl (a ++ z) = none := by
  induction a with
  | nil => intro _ h _; simp at h
  | cons c a' ih =>
    intro hnl hex z
    by_cases hc : pyIsSpace c
    · have hcnl : ¬ c = '\n' := fun e => hnl (e ▸ List.mem_cons_self ..)
      have hex' : ∃ d ∈ a', pyIsSpace d = false := by
        obtain ⟨d, hd, hds⟩ := hex
        rcases List.mem_cons.mp hd with hd | hd
        · rw [hd] at hds; rw [hds] at hc; cases hc
        · exact ⟨d, hd, hds⟩
      have hnl' : '\n' ∉ a' := fun e => hnl (List.mem_cons_of_mem c e)
      rw [List.cons_append]
      simp [afterLastNl, hc, hcnl, ih hnl' hex' z]
    · rw [List.cons_append]
      simp [afterLastNl, hc]

/-- Splitting a element off the end of a list decomposed around one
element. -/
theorem append_singleton_decomp {A : Str} {x y : Char} {u v : Str}
    (h : A ++ [x] = u ++ y :: v) :
    (v = [] ∧ u = A ∧ y = x) ∨ (∃ v', A = u ++ y :: v' ∧ v = v' ++ [x]) := by
  rcases List.eq_nil_or_concat v with hv | ⟨v', a, hv⟩
  · subst hv
    have := List.append_inj' h (by simp)
    refine Or.inl ⟨rfl, this.1.symm ▸ rfl, ?_⟩
    have h2 := this.2
    injection h2 with h3 _
    exact h3.symm
  · subst hv
    rw [List.concat_eq_append] at h
    have hassoc : u ++ y :: (v' ++ [a]) = (u ++ y :: v') ++ [a] := by simp
    rw [hassoc] at h
    have := List.append_inj' h (by simp)
    refine Or.inr ⟨v', this.1, ?_⟩
    have h2 := this.2
    injection h2 with h3 _
    rw [h3, List.concat_eq_append]

/-- Scanning a newline-free segment of the input just moves it into the
accumulator. -/
theorem reSplitAux_scan_line (a : Str) (hnl : '\n' ∉ a) :
    ∀ fuel acc z, a.length ≤ fuel →
      reSplitAux fuel acc (a ++ z) = reSplitAux (fuel - a.length) (a.reverse ++ acc) z := by
  induction a with
  | nil => intro fuel acc z _; simp
  | cons c a' ih =>
    intro fuel acc z hle
    obtain ⟨f, rfl⟩ : ∃ f, fuel = f + 1 := by
      cases fuel with
      | zero => simp at hle
      | succ f => exact ⟨f, rfl⟩
    have hc : ¬ c = '\n' := fun e => hnl (e ▸ List.mem_cons_self ..)
    have hnl' : '\n' ∉ a' := fun e => hnl (List.mem_cons_of_mem c e)
    have hlen : f + 1 - (c :: a').length = f - a'.length := by simp
    have hrev : (c :: a').reverse ++ acc = a'.reverse ++ (c :: acc) := by simp
    rw [List.cons_append]
    show reSplitAux (f + 1) acc (c :: (a' ++ z)) = _
    simp only [reSplitAux, if_neg hc]
    rw [ih hnl' f (c :: acc) z (by simp at hle; omega), hlen, hrev]

/-- Soundness of the splitter: no output block contains a separator
occurrence. -/
theorem reSplitAux_sound :
    ∀ fuel (s acc : Str), s.length ≤ fuel →
      (∀ u v : Str, acc.reverse = u ++ '\n' :: v → afterLastNl (v ++ s) = none) →
      ∀ b ∈ reSplitAux fuel acc s, NoSepIn b := by
  intro fuel
  induction fuel with
  | zero =>
    intro s acc hle hacc b hb
    have hs : s = [] := List.length_eq_zero.mp (by omega)
    subst hs
    simp only [reSplitAux, List.mem_singleton] at hb
    subst hb
    intro u v huv
    have := hacc u v huv
    rwa [List.append_nil] at this
  | succ f ih =>
    intro s acc hle hacc b hb
    cases s with
    | nil =>
      simp only [reSplitAux, List.mem_singleton] at hb
      subst hb
      intro u v huv
      have := hacc u v huv
      rwa [List.append_nil] at this
    | cons c rest =>
      by_cases hc : c = '\n'
      · subst hc
        cases ha : afterLastNl rest with
        | some r =>
          simp only [reSplitAux, reduceIte, ha, List.mem_cons] at hb
          rcases hb with hb | hb
          · subst hb
            intro u v huv
            exact afterLastNl_none_of_append v ('\n' :: rest) (hacc u v huv)
          · refine ih r [] ?_ (by simp) b hb
            have := afterLastNl_some_length rest r ha
            simp at hle
            omega
        | none =>
          simp only [reSplitAux, reduceIte, ha] at hb
          refine ih rest ('\n' :: acc) (by simp at hle; omega) ?_ b hb
          intro u v huv
          simp only [List.reverse_cons] at huv
          rcases append_singleton_decomp huv with ⟨hv, _, _⟩ | ⟨v', hA, hv⟩
          · subst hv
            rw [List.nil_append]
            exact ha
          · have := hacc u v' hA
            rw [hv, List.append_assoc, List.singleton_append]
            exact this
      · simp only [reSplitAux, if_neg hc] at hb
        refine ih rest (c :: acc) (by simp at hle; omega) ?_ b hb
        intro u v huv
        simp only [List.reverse_cons] at huv
        rcases append_singleton_decomp huv with ⟨_, _, hy⟩ | ⟨v', hA, hv⟩
        · exact absurd hy.symm hc
        · have := hacc u v' hA
          rw [hv, List.append_assoc, List.singleton_append]
          exact this

/-- Every block produced by the blank-line splitter is separator-free. -/
theorem reSplitNlNl_sound (s : Str) : ∀ b ∈ reSplitNlNl s, NoSepIn b :=
  reSplitAux_sound s.length s [] (Nat.le_refl _) (by simp)

/-!
## Structure of separator-free blocks
-/

theorem NoSepIn_infix {s p m q : Str} (h : NoSepIn s) (he : s = p ++ m ++ q) :
    NoSepIn m := by
  intro u v huv
  have hdec : s = (p ++ u) ++ '\n' :: (v ++ q) := by
    rw [he, huv]; simp
  exact afterLastNl_none_of_append v q (h (p ++ u) (v ++ q) hdec)

theorem NoSepIn_tail {c : Char} {rest : Str} (h : NoSepIn (c :: rest)) :
    NoSepIn rest :=
  NoSepIn_infix h (show c :: rest = [c] ++ rest ++ [] by simp)

theorem eq_stripEnd_append (p : Char → Bool) (l : Str) :
    l = (l.reverse.dropWhile p).reverse ++ (l.reverse.takeWhile p).reverse := by
  conv_lhs =>
    rw [← List.reverse_reverse l,
      ← List.takeWhile_append_dropWhile (p := p) (l := l.reverse)]
  rw [List.reverse_append]

/-- `strip` removes a prefix and a suffix. -/
theorem pyStrip_infix (s : Str) : ∃ p q, s = p ++ pyStrip s ++ q := by
  refine ⟨s.takeWhile pyIsSpace,
    ((s.dropWhile pyIsSpace).reverse.takeWhile pyIsSpace).reverse, ?_⟩
  conv_lhs =>
    rw [← List.takeWhile_append_dropWhile (p := pyIsSpace) (l := s),
      eq_stripEnd_append pyIsSpace (s.dropWhile pyIsSpace)]
  rw [pyStrip, List.append_assoc]

theorem dropWhile_head_not (p : Char → Bool) :
    ∀ l : Str, ∀ c, (l.dropWhile p).head? = some c → p c = false := by
  intro l
  induction l with
  | nil => intro c h; simp at h
  | cons x l ih =>
    intro c h
    by_cases hx : p x
    · rw [List.dropWhile_cons, if_pos hx] at h
      exact ih c h
    · rw [List.dropWhile_cons, if_neg hx] at h
      simp only [List.head?_cons, Option.some.injEq] at h
      rw [← h]
      exact Bool.eq_false_iff.mpr hx

theorem pyStrip_head_not_space (s : Str) :
    ∀ c, (pyStrip s).head? = some c → pyIsSpace c = false := by
  intro c h
  by_cases hnil : pyStrip s = []
  · rw [hnil] at h; simp at h
  · have hd : s.dropWhile pyIsSpace
        = pyStrip s ++ ((s.dropWhile pyIsSpace).reverse.takeWhile pyIsSpace).reverse := by
      conv_lhs => rw [eq_stripEnd_append pyIsSpace (s.dropWhile pyIsSpace)]
      rw [pyStrip]
    have hh : (s.dropWhile pyIsSpace).head? = some c := by
      rw [hd]
      cases hs : pyStrip s with
      | nil => exact absurd hs hnil
      | cons x t =>
        rw [hs] at h
        simp only [List.head?_cons, Option.some.injEq] at h
        rw [List.cons_append]
        simp [h]
    exact dropWhile_head_not pyIsSpace s c hh

theorem pyStrip_last_not_space (s : Str) :
    ∀ c, (pyStrip s).getLast? = some c → pyIsSpace c = false := by
  intro c h
  rw [← List.head?_reverse, pyStrip, List.reverse_reverse] at h
  exact dropWhile_head_not pyIsSpace _ c h

theorem getLast?_cons_of_ne_nil {c : Char} {rest : Str} (h : rest ≠ []) :
    (c :: rest).getLast? = rest.getLast? := by
  rw [← List.singleton_append, List.getLast?_append_of_ne_nil _ h]

/-- When no separator can start at the head of `r` and `r` ends in
non-whitespace, the first line of `r` holds a non-whitespace character. -/
theorem firstLine_has_nonspace :
    ∀ r : Str, afterLastNl r = none →
      (∀ c, r.getLast? = some c → pyIsSpace c = false) → r ≠ [] →
      ∃ c ∈ (splitChar '\n' r).headD [], pyIsSpace c = false := by
  intro r
  induction r with
  | nil => intro _ _ hne; exact absurd rfl hne
  | cons c r' ih =>
    intro h hlast _
    by_cases hws : pyIsSpace c
    · simp only [afterLastNl, if_pos hws] at h
      cases har : afterLastNl r' with
      | some w => rw [har] at h; cases h
      | none =>
        rw [har] at h
        have hcnl : ¬ c = '\n' := by
          intro e
          rw [if_pos e] at h
          cases h
        have hr' : r' ≠ [] := by
          intro e
          subst e
          have := hlast c (by simp)
          rw [this] at hws
          cases hws
        obtain ⟨l0, ls, hs⟩ := List.exists_cons_of_ne_nil (splitChar_ne_nil '\n' r')
        have hlast' : ∀ d, r'.getLast? = some d → pyIsSpace d = false := by
          intro d hd
          exact hlast d (by rwa [getLast?_cons_of_ne_nil hr'])
        obtain ⟨d, hd, hdws⟩ := ih har hlast' hr'
        refine ⟨d, ?_, hdws⟩
        simp only [splitChar, if_neg hcnl, hs]
        rw [hs] at hd
        simp only [List.headD_cons] at hd ⊢
        exact List.mem_cons_of_mem c hd
    · have hcnl : ¬ c = '\n' := by
        intro e
        rw [e] at hws
        exact hws (by decide)
      obtain ⟨l0, ls, hs⟩ := List.exists_cons_of_ne_nil (splitChar_ne_nil '\n' r')
      refine ⟨c, ?_, Bool.eq_false_iff.mpr hws⟩
      simp only [splitChar, if_neg hcnl, hs, List.headD_cons]
      exact List.mem_cons_self ..

/-- In a separator-free string ending in non-whitespace, every line after
the first holds a non-whitespace character. -/
theorem lines_tail_nonspace :
    ∀ s : Str, NoSepIn s →
      (∀ c, s.getLast? = some c → pyIsSpace c = false) →
      ∀ l ∈ (splitChar '\n' s).tail, ∃ c ∈ l, pyIsSpace c = false := by
  intro s
  induction s with
  | nil => intro _ _ l hl; simp [splitChar] at hl
  | cons c rest ih =>
    intro hnos hlast l hl
    by_cases hc : c = '\n'
    · subst hc
      simp only [splitChar, reduceIte, List.tail_cons] at hl
      have hrest : rest ≠ [] := by
        intro e
        subst e
        have := hlast '\n' (by simp)
        cases this
      have hlast' : ∀ d, rest.getLast? = some d → pyIsSpace d = false := by
        intro d hd
        exact hlast d (by rwa [getLast?_cons_of_ne_nil hrest])
      obtain ⟨l0, ls, hs⟩ := List.exists_cons_of_ne_nil (splitChar_ne_nil '\n' rest)
      rw [hs] at hl
      rcases List.mem_cons.mp hl with hl | hl
      · have hfirst := firstLine_has_nonspace rest
          (hnos [] rest (by simp)) hlast' hrest
        rw [hs] at hfirst
        simp only [List.headD_cons] at hfirst
        rw [hl]
        exact hfirst
      · exact ih (NoSepIn_tail hnos) hlast' l (by rw [hs]; exact hl)
    · cases hrest : rest with
      | nil =>
        subst hrest
        simp only [splitChar, if_neg hc] at hl
        simp at hl
      | cons x xs =>
        have hrne : rest ≠ [] := by rw [hrest]; simp
        obtain ⟨l0, ls, hs⟩ := List.exists_cons_of_ne_nil (splitChar_ne_nil '\n' rest)
        simp only [splitChar, if_neg hc, hs, List.tail_cons] at hl
        have hlast' : ∀ d, rest.getLast? = some d → pyIsSpace d = false := by
          intro d hd
          exact hlast d (by rwa [getLast?_cons_of_ne_nil hrne])
        exact ih (NoSepIn_tail hnos) hlast' l (by rw [hs]; simpa using hl)

/-!
## Records produced by the parser are serialisable
-/

theorem getD_mem_of_lt {l : List Str} {i : Nat} (h : i < l.length) :
    l.getD i [] ∈ l := by
  rw [List.getD_eq_getElem?_getD, List.getElem?_eq_getElem h]
  simp only [Option.getD_some]
  exact List.getElem_mem h

theorem mem_drop_two_tail {l : List Str} {x : Str} (h : x ∈ l.drop 2) :
    x ∈ l.tail := by
  rw [← List.drop_one]
  have he : l.drop 2 = (l.drop 1).drop 1 := by rw [List.drop_drop]
  rw [he] at h
  exact List.mem_of_mem_drop h

/-- What `parseBlockFn b = some r` reveals about `r`. -/
theorem parseBlockFn_some_inv {b : Str} {r : Record}
    (h : parseBlockFn b = some r) :
    3 ≤ (splitChar '\n' (pyStrip b)).length
    ∧ r.timeline = (splitChar '\n' (pyStrip b)).getD 1 []
    ∧ r.text = joinChar '\n' ((splitChar '\n' (pyStrip b)).drop 2)
    ∧ containsSub ("-->".data) r.timeline = true
    ∧ pyIntParse ((splitChar '\n' (pyStrip b)).getD 0 []) = some r.index := by
  unfold parseBlockFn at h
  by_cases hsb : pyStrip b = []
  · simp [hsb] at h
  · simp only [hsb, ite_false] at h
    by_cases hlen : (splitChar '\n' (pyStrip b)).length < 3
    · simp [hlen] at h
    · simp only [hlen, ite_false] at h
      cases hint : pyIntParse ((splitChar '\n' (pyStrip b)).getD 0 []) with
      | none => rw [hint] at h; simp at h
      | some idx =>
        rw [hint] at h
        simp only [] at h
        by_cases hmark :
            containsSub ("-->".data) ((splitChar '\n' (pyStrip b)).getD 1 []) = true
        · rw [if_pos hmark] at h
          injection h with h
          subst h
          exact ⟨by omega, rfl, rfl, hmark, rfl⟩
        · rw [if_neg hmark] at h
          cases h

/-- Every record produced by `parse_srt` is valid. -/
theorem parse_srt_valid (s : Str) : ∀ r ∈ parse_srt s, ValidRecord r := by
  intro r hr
  rw [parse_srt, parseBlocksLoop_eq_filterMap] at hr
  obtain ⟨b, hb, hpb⟩ := List.mem_filterMap.mp hr
  obtain ⟨hlen, htl, htx, hmark, _⟩ := parseBlockFn_some_inv hpb
  have hnosb : NoSepIn b := reSplitNlNl_sound (pyStrip s) b hb
  obtain ⟨p, q, hpq⟩ := pyStrip_infix b
  have hnos : NoSepIn (pyStrip b) := NoSepIn_infix hnosb hpq
  have hlast : ∀ c, (pyStrip b).getLast? = some c → pyIsSpace c = false :=
    pyStrip_last_not_space b
  have h0 : splitChar '\n' (pyStrip b) ≠ [] := splitChar_ne_nil '\n' (pyStrip b)
  obtain ⟨l0, t1, e1⟩ := List.exists_cons_of_ne_nil h0
  have h1 : t1 ≠ [] := by
    intro e
    rw [e1, e] at hlen
    simp at hlen
  obtain ⟨l1, rest2, e2⟩ := List.exists_cons_of_ne_nil h1
  have hrest2ne : rest2 ≠ [] := by
    intro e
    rw [e1, e2, e] at hlen
    simp at hlen
  obtain ⟨x2, xs2, e3⟩ := List.exists_cons_of_ne_nil hrest2ne
  have hdrop : (splitChar '\n' (pyStrip b)).drop 2 = rest2 := by
    rw [e1, e2]
    rfl
  have hjoin : pyStrip b = l0 ++ '\n' :: (l1 ++ '\n' :: joinChar '\n' rest2) := by
    conv_lhs => rw [← joinChar_splitChar '\n' (pyStrip b), e1, e2, e3]
    rw [e3]
    rfl
  have egl : (pyStrip b).getLast? = ('\n' :: joinChar '\n' rest2).getLast? := by
    rw [hjoin, List.getLast?_append_cons,
      show ('\n' :: (l1 ++ '\n' :: joinChar '\n' rest2))
          = ('\n' :: l1) ++ '\n' :: joinChar '\n' rest2 by simp,
      List.getLast?_append_cons]
  have hTne : joinChar '\n' rest2 ≠ [] := by
    intro e
    have hws : pyIsSpace '\n' = false := by
      apply hlast
      rw [egl, e]
      rfl
    cases hws
  have hTlast : ∀ c, (joinChar '\n' rest2).getLast? = some c → pyIsSpace c = false := by
    intro c hcc
    apply hlast
    rw [egl, getLast?_cons_of_ne_nil hTne, hcc]
  have hnlrest : ∀ l ∈ rest2, '\n' ∉ l := by
    intro l hl
    apply splitChar_sep_not_mem '\n' (pyStrip b) l
    rw [e1, e2]
    exact List.mem_cons_of_mem l0 (List.mem_cons_of_mem l1 hl)
  refine ⟨?_, hmark, ?_, ?_, ?_⟩
  · rw [htl]
    exact splitChar_sep_not_mem '\n' (pyStrip b) _ (getD_mem_of_lt (by omega))
  · intro l hl
    rw [htx, hdrop, splitChar_joinChar '\n' rest2 hnlrest hrest2ne] at hl
    apply lines_tail_nonspace (pyStrip b) hnos hlast l
    rw [e1]
    simp only [List.tail_cons]
    rw [e2]
    exact List.mem_cons_of_mem l1 hl
  · rw [htx, hdrop]
    exact hTlast
  · rw [htx, hdrop]
    exact hTne

/-!
## Serialisation shape lemmas
-/

theorem isPrefixOf_exists : ∀ n h : Str, n.isPrefixOf h = true → ∃ t, h = n ++ t := by
  intro n
  induction n with
  | nil => intro h _; exact ⟨h, rfl⟩
  | cons c n' ih =>
    intro h hp
    cases h with
    | nil => simp [List.isPrefixOf] at hp
    | cons d h' =>
      simp only [List.isPrefixOf, Bool.and_eq_true, beq_iff_eq] at hp
      obtain ⟨t, ht⟩ := ih h' hp.2
      exact ⟨t, by rw [ht, hp.1, List.cons_append]⟩

theorem containsSub_exists : ∀ needle hay : Str,
    containsSub needle hay = true → ∃ p q, hay = p ++ needle ++ q := by
  intro needle hay
  induction hay with
  | nil =>
    intro h
    simp only [containsSub, List.isEmpty_iff] at h
    exact ⟨[], [], by simp [h]⟩
  | cons c rest ih =>
    intro h
    rcases Bool.or_eq_true .. |>.mp h with h | h
    · obtain ⟨t, ht⟩ := isPrefixOf_exists needle (c :: rest) h
      exact ⟨[], t, by simp [ht]⟩
    · obtain ⟨p, q, hpq⟩ := ih h
      exact ⟨c :: p, q, by simp [hpq]⟩

theorem head?_append_of_ne_nil {l₁ l₂ : Str} (h : l₁ ≠ []) :
    (l₁ ++ l₂).head? = l₁.head? := by
  cases l₁ with
  | nil => exact absurd rfl h
  | cons c t => rfl

theorem timeline_has_nonspace {r : Record} (h : ValidRecord r) :
    ∃ c ∈ r.timeline, pyIsSpace c = false := by
  obtain ⟨p, q, hpq⟩ := containsSub_exists _ _ h.2.1
  refine ⟨'-', ?_, by decide⟩
  rw [hpq]
  apply List.mem_append_left
  apply List.mem_append_right
  exact List.mem_cons_self ..

theorem intToChars_has_nonspace (i : Int) :
    ∃ c ∈ intToChars i, pyIsSpace c = false := by
  obtain ⟨c, t, hc⟩ := List.exists_cons_of_ne_nil (intToChars_ne_nil i)
  exact ⟨c, hc ▸ List.mem_cons_self .., intToChars_not_space i c (hc ▸ List.mem_cons_self ..)⟩

/-- `generate_srt` output for a non-empty list: the joined blocks and a
final newline. -/
theorem generate_srt_eq : ∀ (r : Record) (rs : List Record),
    generate_srt (r :: rs) = serBlocks (r :: rs) ++ ['\n'] := by
  intro r rs
  induction rs generalizing r with
  | nil => simp [generate_srt, genLines, joinChar, serBlocks, blockStr]
  | cons r2 rs' ih =>
    have h2 : generate_srt (r :: r2 :: rs')
        = intToChars r.index ++ ('\n' :: (r.timeline ++ ('\n' :: (r.text
          ++ ('\n' :: ('\n' :: generate_srt (r2 :: rs'))))))) := rfl
    have h3 : serBlocks (r :: r2 :: rs')
        = blockStr r ++ '\n' :: '\n' :: serBlocks (r2 :: rs') := rfl
    rw [h2, ih r2, h3]
    simp [blockStr]

theorem blockStr_ne_nil (r : Record) : blockStr r ≠ [] := by
  unfold blockStr
  intro h
  have := congrArg List.length h
  simp at this

theorem serBlocks_ne_nil (r : Record) (rs : List Record) : serBlocks (r :: rs) ≠ [] := by
  cases rs with
  | nil => exact blockStr_ne_nil r
  | cons r2 rs' =>
    show blockStr r ++ '\n' :: '\n' :: serBlocks (r2 :: rs') ≠ []
    simp

theorem blockStr_head_not_space (r : Record) :
    ∀ c, (blockStr r).head? = some c → pyIsSpace c = false := by
  intro c h
  unfold blockStr at h
  rw [head?_append_of_ne_nil
    (fun e => intToChars_ne_nil r.index (List.append_eq_nil.mp e).1)] at h
  rw [head?_append_of_ne_nil (intToChars_ne_nil r.index)] at h
  exact intToChars_not_space r.index c
    (List.mem_of_mem_head? (by rw [Option.mem_def]; exact h))

theorem blockStr_getLast? (r : Record) (h : r.text ≠ []) :
    (blockStr r).getLast? = r.text.getLast? := by
  unfold blockStr
  rw [List.getLast?_append_of_ne_nil _ (by simp), getLast?_cons_of_ne_nil h]

theorem serBlocks_head_not_space (r : Record) (rs : List Record) :
    ∀ c, (serBlocks (r :: rs)).head? = some c → pyIsSpace c = false := by
  intro c h
  cases rs with
  | nil => exact blockStr_head_not_space r c h
  | cons r2 rs' =>
    have he : serBlocks (r :: r2 :: rs')
        = blockStr r ++ '\n' :: '\n' :: serBlocks (r2 :: rs') := rfl
    rw [he, head?_append_of_ne_nil (blockStr_ne_nil r)] at h
    exact blockStr_head_not_space r c h

theorem serBlocks_getLast_not_space :
    ∀ (rs : List Record) (r : Record), (∀ x ∈ r :: rs, ValidRecord x) →
      ∀ c, (serBlocks (r :: rs)).getLast? = some c → pyIsSpace c = false := by
  intro rs
  induction rs with
  | nil =>
    intro r hv c h
    have hvr := hv r (List.mem_cons_self ..)
    have he : serBlocks [r] = blockStr r := rfl
    rw [he, blockStr_getLast? r hvr.2.2.2.2] at h
    exact hvr.2.2.2.1 c h
  | cons r2 rs' ih =>
    intro r hv c h
    have he : serBlocks (r :: r2 :: rs')
        = blockStr r ++ '\n' :: '\n' :: serBlocks (r2 :: rs') := rfl
    rw [he, List.getLast?_append_cons,
      show ('\n' :: ('\n' :: serBlocks (r2 :: rs')))
          = ['\n'] ++ '\n' :: serBlocks (r2 :: rs') by simp,
      List.getLast?_append_cons,
      getLast?_cons_of_ne_nil (serBlocks_ne_nil r2 rs')] at h
    exact ih r2 (fun x hx => hv x (List.mem_cons_of_mem r hx)) c h

/-- Stripping the serialised output removes exactly the final newline. -/
theorem pyStrip_append_nl (X : Str)
    (hh : ∀ c, X.head? = some c → pyIsSpace c = false)
    (hl : ∀ c, X.getLast? = some c → pyIsSpace c = false) :
    pyStrip (X ++ ['\n']) = X := by
  cases hX : X with
  | nil => rfl
  | cons c X' =>
    rw [← hX]
    unfold pyStrip
    rw [dropWhile_eq_self_of_head pyIsSpace (X ++ ['\n'])
      (by
        intro d hd
        rw [head?_append_of_ne_nil (by rw [hX]; simp)] at hd
        exact hh d hd)]
    rw [List.reverse_append]
    show ((('\n' :: X.reverse)).dropWhile pyIsSpace).reverse = X
    rw [List.dropWhile_cons, if_pos (by decide)]
    rw [dropWhile_eq_self_of_head pyIsSpace X.reverse
      (by
        intro d hd
        rw [List.head?_reverse] at hd
        exact hl d hd)]
    exact List.reverse_reverse X

/-!
## Re-splitting the serialised output
-/

theorem reSplitAux_nil (fuel : Nat) (acc : Str) :
    reSplitAux fuel acc [] = [acc.reverse] := by
  cases fuel <;> rfl

theorem joinChar_cons_decomp (sep : Char) (l : Str) (ls : List Str) :
    ∃ t, joinChar sep (l :: ls) = l ++ t := by
  cases ls with
  | nil => exact ⟨[], by simp [joinChar]⟩
  | cons l2 ls' => exact ⟨sep :: joinChar sep (l2 :: ls'), rfl⟩

/-- Scanning the join of newline-free lines with substance: no separator
fires inside, the whole join moves to the accumulator. -/
theorem reSplitAux_scan_lines :
    ∀ ls : List Str, (∀ l ∈ ls, '\n' ∉ l) →
      (∀ l ∈ ls, ∃ c ∈ l, pyIsSpace c = false) → ls ≠ [] →
      ∀ fuel acc z, (joinChar '\n' ls).length ≤ fuel →
        reSplitAux fuel acc (joinChar '\n' ls ++ z)
          = reSplitAux (fuel - (joinChar '\n' ls).length)
              ((joinChar '\n' ls).reverse ++ acc) z := by
  intro ls
  induction ls with
  | nil => intro _ _ hne; exact absurd rfl hne
  | cons l ls' ih =>
    intro hnl hnws _ fuel acc z hfuel
    cases ls' with
    | nil =>
      show reSplitAux fuel acc (l ++ z)
        = reSplitAux (fuel - l.length) (l.reverse ++ acc) z
      exact reSplitAux_scan_line l (hnl l (List.mem_cons_self ..)) fuel acc z hfuel
    | cons l2 ls'' =>
      have hJ : joinChar '\n' (l :: l2 :: ls'')
          = l ++ '\n' :: joinChar '\n' (l2 :: ls'') := rfl
      have hlen : (joinChar '\n' (l :: l2 :: ls'')).length
          = l.length + 1 + (joinChar '\n' (l2 :: ls'')).length := by
        rw [hJ]
        simp
        omega
      rw [hJ] at hfuel ⊢
      rw [List.append_assoc, List.cons_append]
      rw [reSplitAux_scan_line l (hnl l (List.mem_cons_self ..)) fuel acc _
        (by simp at hfuel; omega)]
      obtain ⟨f', hf'⟩ : ∃ f', fuel - l.length = f' + 1 := by
        have : 1 ≤ fuel - l.length := by simp at hfuel; omega
        exact ⟨fuel - l.length - 1, by omega⟩
      rw [hf']
      obtain ⟨t, ht⟩ := joinChar_cons_decomp '\n' l2 ls''
      have hnone : afterLastNl (joinChar '\n' (l2 :: ls'') ++ z) = none := by
        rw [ht, List.append_assoc]
        exact afterLastNl_none_of_line l2
          (hnl l2 (List.mem_cons_of_mem l (List.mem_cons_self ..)))
          (hnws l2 (List.mem_cons_of_mem l (List.mem_cons_self ..))) (t ++ z)
      show reSplitAux (f' + 1) (l.reverse ++ acc)
          ('\n' :: (joinChar '\n' (l2 :: ls'') ++ z)) = _
      simp only [reSplitAux, reduceIte, hnone]
      rw [ih (fun x hx => hnl x (List.mem_cons_of_mem l hx))
        (fun x hx => hnws x (List.mem_cons_of_mem l hx)) (by simp)
        f' ('\n' :: (l.reverse ++ acc)) z (by simp at hfuel; omega)]
      congr 1
      · simp at hlen ⊢
        omega
      · simp

/-- The lines of a serialised block are newline-free. -/
theorem blockStr_lines_nl (r : Record) (hv : ValidRecord r) :
    ∀ l ∈ (intToChars r.index :: r.timeline :: splitChar '\n' r.text), '\n' ∉ l := by
  intro l hl
  rcases List.mem_cons.mp hl with hl | hl
  · subst hl
    intro hmem
    exact intToChars_not_nl r.index '\n' hmem rfl
  rcases List.mem_cons.mp hl with hl | hl
  · subst hl
    exact hv.1
  · exact splitChar_sep_not_mem '\n' r.text l hl

/-- The lines of a serialised block each carry a non-whitespace
character. -/
theorem blockStr_lines_nws (r : Record) (hv : ValidRecord r) :
    ∀ l ∈ (intToChars r.index :: r.timeline :: splitChar '\n' r.text),
      ∃ c ∈ l, pyIsSpace c = false := by
  intro l hl
  rcases List.mem_cons.mp hl with hl | hl
  · subst hl
    exact intToChars_has_nonspace r.index
  rcases List.mem_cons.mp hl with hl | hl
  · subst hl
    exact timeline_has_nonspace hv
  · exact hv.2.2.1 l hl

theorem blockStr_eq_joinChar (r : Record) :
    blockStr r
      = joinChar '\n' (intToChars r.index :: r.timeline :: splitChar '\n' r.text) := by
  obtain ⟨l0, ls, hs⟩ := List.exists_cons_of_ne_nil (splitChar_ne_nil '\n' r.text)
  rw [hs]
  show blockStr r
    = intToChars r.index ++ ('\n' :: (r.timeline ++ ('\n' :: joinChar '\n' (l0 :: ls))))
  rw [← hs, joinChar_splitChar]
  unfold blockStr
  simp

/-- Re-splitting the serialised blocks recovers exactly the blocks. -/
theorem reSplitAux_serBlocks :
    ∀ (rs : List Record) (r : Record), (∀ x ∈ r :: rs, ValidRecord x) →
      ∀ fuel acc, (serBlocks (r :: rs)).length ≤ fuel →
        reSplitAux fuel acc (serBlocks (r :: rs))
          = (acc.reverse ++ blockStr r) :: rs.map blockStr := by
  intro rs
  induction rs with
  | nil =>
    intro r hv fuel acc hfuel
    have he : serBlocks [r] = blockStr r := rfl
    rw [he, blockStr_eq_joinChar r] at hfuel ⊢
    conv_lhs =>
      rw [← List.append_nil (joinChar '\n'
        (intToChars r.index :: r.timeline :: splitChar '\n' r.text))]
    rw [reSplitAux_scan_lines _ (blockStr_lines_nl r (hv r (List.mem_cons_self ..)))
      (blockStr_lines_nws r (hv r (List.mem_cons_self ..))) (by simp) fuel acc [] hfuel]
    rw [reSplitAux_nil]
    simp
  | cons r2 rs' ih =>
    intro r hv fuel acc hfuel
    have hvr := hv r (List.mem_cons_self ..)
    have he : serBlocks (r :: r2 :: rs')
        = blockStr r ++ '\n' :: '\n' :: serBlocks (r2 :: rs') := rfl
    rw [he] at hfuel ⊢
    rw [blockStr_eq_joinChar r] at hfuel ⊢
    rw [reSplitAux_scan_lines _ (blockStr_lines_nl r hvr)
      (blockStr_lines_nws r hvr) (by simp) fuel acc _
      (by simp at hfuel ⊢; omega)]
    obtain ⟨f', hf'⟩ : ∃ f', fuel - (joinChar '\n'
        (intToChars r.index :: r.timeline :: splitChar '\n' r.text)).length = f' + 1 := by
      refine ⟨fuel - (joinChar '\n'
        (intToChars r.index :: r.timeline :: splitChar '\n' r.text)).length - 1, ?_⟩
      simp at hfuel
      omega
    rw [hf']
    have hsome : afterLastNl ('\n' :: serBlocks (r2 :: rs'))
        = some (serBlocks (r2 :: rs')) :=
      afterLastNl_nl_cons _ (serBlocks_head_not_space r2 rs')
    simp only [reSplitAux, reduceIte, hsome]
    rw [ih r2 (fun x hx => hv x (List.mem_cons_of_mem r hx)) f' []
      (by simp at hfuel; omega)]
    rw [← blockStr_eq_joinChar r]
    simp

/-- A valid record's serialised block parses back to the record. -/
theorem parseBlockFn_blockStr (r : Record) (hv : ValidRecord r) :
    parseBlockFn (blockStr r) = some r := by
  have hstrip : pyStrip (blockStr r) = blockStr r :=
    pyStrip_eq_self _ (blockStr_head_not_space r) (fun c hc => by
      rw [blockStr_getLast? r hv.2.2.2.2] at hc
      exact hv.2.2.2.1 c hc)
  have hlines : splitChar '\n' (blockStr r)
      = intToChars r.index :: r.timeline :: splitChar '\n' r.text := by
    unfold blockStr
    rw [List.append_assoc, List.cons_append]
    rw [splitChar_append_cons '\n' (intToChars r.index) _
      (fun hmem => intToChars_not_nl r.index '\n' hmem rfl)]
    rw [splitChar_append_cons '\n' r.timeline _ hv.1]
  have hL : splitChar '\n' r.text ≠ [] := splitChar_ne_nil '\n' r.text
  have hlen : ¬ (splitChar '\n' (blockStr r)).length < 3 := by
    rw [hlines]
    simp only [List.length_cons]
    have : 0 < (splitChar '\n' r.text).length := List.length_pos.mpr hL
    omega
  have hlen3 : ¬ (intToChars r.index :: r.timeline :: splitChar '\n' r.text).length < 3 := by
    simp only [List.length_cons]
    have := List.length_pos.mpr hL
    omega
  have htext : joinChar '\n'
      ((intToChars r.index :: r.timeline :: splitChar '\n' r.text).drop 2) = r.text := by
    show joinChar '\n' (splitChar '\n' r.text) = r.text
    exact joinChar_splitChar '\n' r.text
  unfold parseBlockFn
  simp only [hstrip, blockStr_ne_nil r, ite_false, hlines, hlen3]
  simp only [List.getD_cons_zero, List.getD_cons_succ]
  rw [pyIntParse_intToChars r.index]
  simp only [hv.2.1, ite_true, htext]

theorem filterMap_parseBlock_blockStr :
    ∀ rs : List Record, (∀ r ∈ rs, ValidRecord r) →
      List.filterMap parseBlockFn (rs.map blockStr) = rs := by
  intro rs
  induction rs with
  | nil => intro _; rfl
  | cons r rs' ih =>
    intro hv
    rw [List.map_cons, List.filterMap_cons,
      parseBlockFn_blockStr r (hv r (List.mem_cons_self ..)),
      ih (fun x hx => hv x (List.mem_cons_of_mem r hx))]

/-- Serialising any list of valid records and parsing back is the
identity. -/
theorem parse_generate (rs : List Record) (hv : ∀ r ∈ rs, ValidRecord r) :
    parse_srt (generate_srt rs) = rs := by
  cases rs with
  | nil => rfl
  | cons r rs' =>
    rw [generate_srt_eq r rs', parse_srt,
      pyStrip_append_nl (serBlocks (r :: rs'))
        (serBlocks_head_not_space r rs') (serBlocks_getLast_not_space rs' r hv),
      reSplitNlNl,
      reSplitAux_serBlocks rs' r hv _ [] (Nat.le_refl _),
      parseBlocksLoop_eq_filterMap]
    show List.filterMap parseBlockFn
        (([].reverse ++ blockStr r) :: rs'.map blockStr) = r :: rs'
    simp only [List.reverse_nil, List.nil_append]
    show List.filterMap parseBlockFn ((r :: rs').map blockStr) = r :: rs'
    exact filterMap_parseBlock_blockStr (r :: rs') hv

/-- C7: parsing, serialising with `generate_srt`, and parsing again is
the identity on the parsed records: index and timeline round-trip
exactly, and the text (already joined from its internal lines by the
first parse) is preserved verbatim. -/
theorem c7_parse_serialize_roundtrip (s : Str) :
    parse_srt (generate_srt (parse_srt s)) = parse_srt s :=
  parse_generate (parse_srt s) (parse_srt_valid s)

end SubtitlesTools
